import Mathlib

/-!
Verification of the schema-driven sanitization engine of the lightfeed
extractor repository.

The development shallowly embeds the code of `src/utils/schemaUtils.ts`
(`isUrlSchema`, `isZodType`, `transformSchemaForLLM`, `fixUrlEscapeSequences`,
`safeSanitizedParser` with its helpers `sanitizeObject`, `sanitizeArray`,
`sanitizeOptional`, `sanitizeNullable`) and the main-content selection
heuristic of `src/converters.ts` (`htmlToMarkdown`, lines 167-184).

Zod schemas are embedded as the recursive `Schema` type (string with checks,
number, boolean, null, object, array, optional, nullable), JSON-like
JavaScript values as `Value` (with explicit `vUndef` for `undefined`).
JavaScript's `null` is `Value.vNull`; `safeSanitizedParser` returns
`Value.vNull` both for the UNSANITIZABLE sentinel and for a legitimate null
result, exactly as the TypeScript code does (its return type is
`z.infer<T> | null`).

Zod's `.parse` is embedded as `parse : Schema → Value → Option Value`
(`none` models a thrown ZodError).  Zod is an external dependency, so its
behaviour is modelled from zod 3.24 (the version in package.json):
  - an object schema parses plain objects only (not null, not arrays),
    strips keys that are not declared in the shape, and keeps a declared key
    in the output exactly when its parsed value is not `undefined` or the
    key was present in the input (zod's `alwaysSet` rule);
  - an optional schema accepts `undefined`, a nullable schema accepts `null`;
  - primitive schemas accept exactly the matching primitive, with string
    checks (url / min / max) evaluated on the string.
The url check itself (zod calls `new URL(...)`) is external; it is modelled
by the executable approximation `isValidUrl` below.  No theorem in this file
depends on the exact URL grammar.
-/

namespace LightfeedExtract

/-- A validation check attached to a zod string schema (`_def.checks`).
Only the checks the claims mention are carried: the `url` format check and
representative non-url constraints (`min`, `max`). -/
inductive SCheck where
  | url : SCheck
  | minLen : Nat → SCheck
  | maxLen : Nat → SCheck
deriving DecidableEq, Repr

mutual
/-- Embedding of the recursive zod schema values consumed by
`schemaUtils.ts`: primitives (string with checks, number, boolean, null),
objects with an insertion-ordered shape, arrays, and the `Optional` /
`Nullable` wrappers.  Every node carries its optional `description`
(`_def.description`). -/
inductive Schema where
  | sString (checks : List SCheck) (desc : Option String) : Schema
  | sNumber (desc : Option String) : Schema
  | sBoolean (desc : Option String) : Schema
  | sNull (desc : Option String) : Schema
  | sObject (props : SProps) (desc : Option String) : Schema
  | sArray (elem : Schema) (desc : Option String) : Schema
  | sOptional (inner : Schema) (desc : Option String) : Schema
  | sNullable (inner : Schema) (desc : Option String) : Schema

/-- The insertion-ordered shape of an object schema: a list of
(property name, property schema) pairs. -/
inductive SProps where
  | nil : SProps
  | cons (key : String) (sch : Schema) (rest : SProps) : SProps
end

/-- JSON-like JavaScript values, with an explicit `undefined`.  Objects are
insertion-ordered association lists (JavaScript objects have unique keys;
lookups below use the first binding, as property access does). -/
inductive Value where
  | vNull : Value
  | vUndef : Value
  | vStr (s : String) : Value
  | vNum (n : Int) : Value
  | vBool (b : Bool) : Value
  | vArr (items : List Value) : Value
  | vObj (fields : List (String × Value)) : Value

/-- JavaScript property read `fields[key]` restricted to own keys: the value
of the first binding of `key`, if any. -/
def lookupF : List (String × Value) → String → Option Value
  | [], _ => none
  | (k, v) :: rest, key => if k = key then some v else lookupF rest key

/-- JavaScript `key in obj`. -/
def hasKey (fields : List (String × Value)) (key : String) : Bool :=
  (lookupF fields key).isSome

/-- `v === null` in JavaScript. -/
def isVNull : Value → Bool
  | .vNull => true
  | _ => false

/-- The kinds distinguished by `ZodFirstPartyTypeKind` dispatch in
`schemaUtils.ts`. -/
inductive SKind where
  | stringK : SKind
  | numberK : SKind
  | booleanK : SKind
  | nullK : SKind
  | objectK : SKind
  | arrayK : SKind
  | optionalK : SKind
  | nullableK : SKind
deriving DecidableEq, Repr

/-- The structural tag of a schema node (`_def.typeName`). -/
def kindOf : Schema → SKind
  | .sString _ _ => .stringK
  | .sNumber _ => .numberK
  | .sBoolean _ => .booleanK
  | .sNull _ => .nullK
  | .sObject _ _ => .objectK
  | .sArray _ _ => .arrayK
  | .sOptional _ _ => .optionalK
  | .sNullable _ _ => .nullableK

/-- `isZodType` from `schemaUtils.ts`: structural tag comparison instead of
`instanceof`. -/
def isZodType (schema : Schema) (type : SKind) : Bool :=
  kindOf schema == type

/-- The `description` metadata of a schema node (`_def.description`). -/
def descOf : Schema → Option String
  | .sString _ d => d
  | .sNumber d => d
  | .sBoolean d => d
  | .sNull d => d
  | .sObject _ d => d
  | .sArray _ d => d
  | .sOptional _ d => d
  | .sNullable _ d => d

/-- Does `pat` occur as the initial segment of `l`? -/
def matchesAt : List Char → List Char → Bool
  | [], _ => true
  | _ :: _, [] => false
  | p :: ps, c :: cs => p = c && matchesAt ps cs

/-- Modelled approximation of zod's url check (zod runs `new URL(input)` and
fails on exception); the exact WHATWG URL grammar is external to this
repository.  The approximation accepts strings that start with an `http://`
or `https://` scheme and contain no space; no theorem below depends on the
exact grammar, only on this predicate being executable. -/
def isValidUrl (s : String) : Bool :=
  (matchesAt (("http://").toList) s.toList || matchesAt (("https://").toList) s.toList)
    && !(s.toList.any (fun c => c == (' ')))

/-- Evaluation of one string check, mirroring zod's string validators. -/
def passCheck : SCheck → String → Bool
  | .url, s => isValidUrl s
  | .minLen n, s => decide (n ≤ s.length)
  | .maxLen n, s => decide (s.length ≤ n)

/-- `isUrlSchema` from `schemaUtils.ts`: a ZodString whose `_def.checks`
contain a check of kind `url`. -/
def isUrlSchema (schema : Schema) : Bool :=
  match schema with
  | .sString checks _ => checks.contains SCheck.url
  | _ => false

mutual
/-- `transformSchemaForLLM` from `schemaUtils.ts`: for a url string schema,
rebuild the string schema with the url checks filtered out (all other
checks and the description kept); for objects, arrays, optional and
nullable, rebuild the node with children transformed recursively (keeping
the rest of the definition, including the description); return every other
schema unchanged. -/
def transformSchemaForLLM : Schema → Schema
  | .sString checks d =>
      if (List.contains checks SCheck.url) then
        .sString (checks.filter (fun c => decide (c ≠ SCheck.url))) d
      else .sString checks d
  | .sObject props d => .sObject (transformProps props) d
  | .sArray elem d => .sArray (transformSchemaForLLM elem) d
  | .sOptional inner d => .sOptional (transformSchemaForLLM inner) d
  | .sNullable inner d => .sNullable (transformSchemaForLLM inner) d
  | s => s

/-- The property-wise loop of `transformSchemaForLLM` over an object shape
(`for (const [key, propertySchema] of Object.entries(schema.shape))`). -/
def transformProps : SProps → SProps
  | .nil => .nil
  | .cons k sch rest => .cons k (transformSchemaForLLM sch) (transformProps rest)
end

/-- The backslash character. -/
def bslashChar : Char := '\\'

/-- One global JavaScript `replace` pass over a character list: every
occurrence of the two-character sequence backslash-`target` is replaced by
`target` alone, scanning left to right without overlap (the semantics of
`data.replace(/\\x/g, "x")`). -/
def replacePair (target : Char) : List Char → List Char
  | [] => []
  | [c] => [c]
  | a :: b :: rest =>
      if a = bslashChar ∧ b = target then target :: replacePair target rest
      else a :: replacePair target (b :: rest)

/-- The string rewrite of `fixUrlEscapeSequences` on a url string leaf:
`data.replace(/\\\(/g, "(").replace(/\\\)/g, ")")`. -/
def fixParens (s : String) : String :=
  String.mk (replacePair (')') (replacePair ('(') s.toList))

mutual
/-- `fixUrlEscapeSequences` from `schemaUtils.ts`: null and undefined pass
through; a string under a url schema has escaped parentheses unescaped; an
object schema with a (non-array) object value is rebuilt property-wise from
the schema's shape; an array schema with an array value is mapped
element-wise; optional and nullable unwrap; everything else passes through
unchanged. -/
def fixUrlEscapeSequences : Value → Schema → Value := fun data schema =>
  match data with
  | .vNull => .vNull
  | .vUndef => .vUndef
  | _ =>
      if isUrlSchema schema then
        match data with
        | .vStr s => .vStr (fixParens s)
        | _ => data
      else
        match schema, data with
        | .sObject props _, .vObj fields => .vObj (fixProps props fields)
        | .sArray elem _, .vArr items =>
            .vArr (items.map (fun it => fixUrlEscapeSequences it elem))
        | .sOptional inner _, _ => fixUrlEscapeSequences data inner
        | .sNullable inner _, _ => fixUrlEscapeSequences data inner
        | _, _ => data

/-- The property loop of `fixUrlEscapeSequences` over an object schema's
shape: for every declared key, `result[key] = fix(data[key], propSchema)`
when the key is in the data, and `result[key] = data[key]` (which is
`undefined`) otherwise.  Note the result is built from the schema's keys,
not the data's. -/
def fixProps : SProps → List (String × Value) → List (String × Value)
  | .nil, _ => []
  | .cons k psch rest, fields =>
      (k, if hasKey fields k
          then fixUrlEscapeSequences ((lookupF fields k).getD .vUndef) psch
          else .vUndef) :: fixProps rest fields
end

/-- Sequencing used by zod's array parse: cons an element parse result onto
the parse result of the remaining elements, failing if either fails. -/
def optListCons (ow : Option Value) (ows : Option (List Value)) : Option (List Value) :=
  ow.bind (fun w => ows.map (fun ws => w :: ws))

/-- Parse every item of a list with `p`, failing when any item fails. -/
def parseItems (p : Value → Option Value) (items : List Value) : Option (List Value) :=
  items.foldr (fun it acc => optListCons (p it) acc) (some [])

/-- Zod's rule for including a declared key in an object parse result: kept
when the parsed value is not `undefined`, or the key was present in the
input (`alwaysSet`). -/
def keepPair (pv : Value) (present : Bool) : Bool :=
  match pv with
  | .vUndef => present
  | _ => true

mutual
/-- Embedding of zod 3.24 `.parse` for the schema fragment used by the
repository; `none` models a thrown ZodError.  See the header comment for
the modelled object rules (strip unknown keys, `alwaysSet`). -/
def parse : Schema → Value → Option Value
  | .sString checks _, .vStr s =>
      if checks.all (fun c => passCheck c s) then some (.vStr s) else none
  | .sString _ _, _ => none
  | .sNumber _, .vNum n => some (.vNum n)
  | .sNumber _, _ => none
  | .sBoolean _, .vBool b => some (.vBool b)
  | .sBoolean _, _ => none
  | .sNull _, .vNull => some .vNull
  | .sNull _, _ => none
  | .sObject props _, .vObj fields => (parseProps props fields).map Value.vObj
  | .sObject _ _, _ => none
  | .sArray elem _, .vArr items =>
      (parseItems (fun it => parse elem it) items).map Value.vArr
  | .sArray _ _, _ => none
  | .sOptional inner _, v =>
      match v with
      | .vUndef => some .vUndef
      | _ => parse inner v
  | .sNullable inner _, v =>
      match v with
      | .vNull => some .vNull
      | _ => parse inner v

/-- The shape loop of zod's object parse: for every declared key in order,
parse `fields[key]` (or `undefined` when absent) against the property
schema, and keep the pair according to `keepPair`. -/
def parseProps : SProps → List (String × Value) → Option (List (String × Value))
  | .nil, _ => some []
  | .cons k psch rest, fields =>
      (parse psch ((lookupF fields k).getD .vUndef)).bind (fun pv =>
        (parseProps rest fields).map (fun tail =>
          if keepPair pv (hasKey fields k) then (k, pv) :: tail else tail))
end

/-- The array loop of `sanitizeArray`: keep `safeSanitizedParser(elem, item)`
for every item where it is not null, silently dropping the rest. -/
def sanitizeItems (san : Value → Value) (items : List Value) : List Value :=
  items.filterMap (fun it =>
    if isVNull (san it) then none else some (san it))

mutual
/-- `safeSanitizedParser` from `schemaUtils.ts`.  A null or undefined input
is parsed directly; otherwise the call dispatches on the schema kind to
`sanitizeObject` / `sanitizeArray` / `sanitizeOptional` / `sanitizeNullable`
(inlined here, with the object shape loop split into `processProps`), and
any other schema parses the value directly.  A thrown error anywhere is
caught and turned into the null sentinel (`Value.vNull`). -/
def safeSanitizedParser : Schema → Value → Value := fun schema raw =>
  match raw with
  | .vNull => (parse schema .vNull).getD .vNull
  | .vUndef => (parse schema .vUndef).getD .vNull
  | _ =>
      if isZodType schema SKind.objectK then
        match schema, raw with
        | .sObject props d, .vObj fields =>
            ((processProps props fields).bind (fun result =>
              parse (.sObject props d) (.vObj result))).getD .vNull
        | _, _ => .vNull
      else if isZodType schema SKind.arrayK then
        match schema, raw with
        | .sArray elem d, .vArr items =>
            (parse (.sArray elem d)
              (.vArr (sanitizeItems (fun it => safeSanitizedParser elem it) items))).getD
              .vNull
        | _, _ => .vNull
      else
        match schema with
        | .sOptional inner _ =>
            if isVNull (safeSanitizedParser inner raw) then .vUndef
            else safeSanitizedParser inner raw
        | .sNullable inner _ =>
            if isVNull (safeSanitizedParser inner raw) then .vNull
            else safeSanitizedParser inner raw
        | s => (parse s raw).getD .vNull

/-- The property loop of `sanitizeObject`: skip keys absent from the raw
object; for an Optional property include its sanitization when it is not
null; for a Nullable property always include its sanitization (the
TypeScript catch branch that would set null is dead code, because
`safeSanitizedParser` never throws); for a required property fail the whole
object when the sanitization is null.  `none` models the thrown error. -/
def processProps : SProps → List (String × Value) → Option (List (String × Value))
  | .nil, _ => some []
  | .cons k psch rest, fields =>
      if hasKey fields k then
        if isZodType psch SKind.optionalK then
          if isVNull (safeSanitizedParser psch ((lookupF fields k).getD .vUndef)) then
            processProps rest fields
          else
            (processProps rest fields).map (fun tail =>
              (k, safeSanitizedParser psch ((lookupF fields k).getD .vUndef)) :: tail)
        else if isZodType psch SKind.nullableK then
          (processProps rest fields).map (fun tail =>
            (k, safeSanitizedParser psch ((lookupF fields k).getD .vUndef)) :: tail)
        else
          if isVNull (safeSanitizedParser psch ((lookupF fields k).getD .vUndef)) then none
          else
            (processProps rest fields).map (fun tail =>
              (k, safeSanitizedParser psch ((lookupF fields k).getD .vUndef)) :: tail)
      else processProps rest fields
end

/-- The list of declared keys of an object shape, in order. -/
def propsKeys : SProps → List String
  | .nil => []
  | .cons k _ rest => k :: propsKeys rest

/-- The shape as a list of (key, schema) pairs, for membership statements. -/
def SProps.toList : SProps → List (String × Schema)
  | .nil => []
  | .cons k sch rest => (k, sch) :: SProps.toList rest

/-- Key list without duplicates (JavaScript object literals cannot repeat
keys, so every zod shape satisfies this). -/
def dupFree : List String → Bool
  | [] => true
  | k :: rest => !(decide (k ∈ rest)) && dupFree rest

mutual
/-- Well-formedness of an embedded schema: every object shape has pairwise
distinct keys.  Automatic for schemas built from JavaScript object
literals. -/
def wfSchema : Schema → Bool
  | .sObject props _ => dupFree (propsKeys props) && wfProps props
  | .sArray elem _ => wfSchema elem
  | .sOptional inner _ => wfSchema inner
  | .sNullable inner _ => wfSchema inner
  | _ => true

/-- Well-formedness of every property schema of a shape. -/
def wfProps : SProps → Bool
  | .nil => true
  | .cons _ sch rest => wfSchema sch && wfProps rest
end

/-- The characters of `l` strictly before the first occurrence of `pat`,
or `none` when `pat` does not occur in `l`. -/
def cutBefore (pat : List Char) : List Char → Option (List Char)
  | [] => if pat.isEmpty then some [] else none
  | c :: rest =>
      if matchesAt pat (c :: rest) then some []
      else (cutBefore pat rest).map (fun pre => c :: pre)

/-- Does `pat` occur anywhere in `l`? -/
def containsSub (pat : List Char) (l : List Char) : Bool :=
  (cutBefore pat l).isSome

/-- The Amazon marker recognized by the url cleaner. -/
def amazonPat : List Char := ("amazon.").toList

/-- The tracking-suffix marker recognized by the url cleaner. -/
def refPat : List Char := ("/ref=").toList

/-- Modelled from the spec: the `cleanUrls` post-processing of resolved URLs
inside `htmlToMarkdown` is not present under src (only the
`HTMLExtractionOptions.cleanUrls` declaration in `types.ts` and its unit
tests are).  Modelled from the spec's words: when the option is enabled,
strip known tracking-parameter suffixes from recognized e-commerce URL
patterns — truncate an Amazon product URL at its `/ref=` segment, removing
everything from `/ref=` onward; when the option is disabled or the URL is
not recognized, leave the URL unmodified. -/
def cleanSingleUrl (cleanUrls : Bool) (href : String) : String :=
  if cleanUrls && containsSub amazonPat href.toList then
    match cutBefore refPat href.toList with
    | some pre => String.mk pre
    | none => href
  else href

/-- The main-content selection heuristic at the end of `htmlToMarkdown`
(`converters.ts`, lines 167-184), taking the two already-converted markdown
strings as inputs (the conversion itself is the external turndown library).
When `extractMainHtml` is enabled: return the full-document markdown when
the main-content markdown is empty, or is both shorter than 20% of the
full-document markdown and shorter than 500 characters; otherwise return
the main-content markdown.  The source compares
`mainMarkdown.length < fullMarkdown.length * 0.2` in JavaScript doubles;
for every representable string length this is equivalent to the exact
rational comparison `5 * main < full` used here (5 * 0.2 is 1 + 2^-54 in
doubles, an error far below the distance to the next integer). -/
def selectConvertedMarkdown (extractMainHtml : Bool)
    (fullMarkdown mainMarkdown : String) : String :=
  if extractMainHtml then
    if mainMarkdown.length = 0 ∨
        (5 * mainMarkdown.length < fullMarkdown.length ∧ mainMarkdown.length < 500) then
      fullMarkdown
    else mainMarkdown
  else fullMarkdown

/-!
### Concrete schemas and values

Inputs taken from the repository's unit tests (`tests/unit/schemaUtils.test.ts`,
`tests/unit/browser.test.ts`) and the spec's examples, used by the claim
witnesses and counterexamples below.
-/

/-- Property name from the unit tests. -/
def keyRequired : String := "required"

/-- Property name from the unit tests. -/
def keyOptional : String := "optional"

/-- Short property name. -/
def keyA : String := "a"

/-- Short property name. -/
def keyB : String := "b"

/-- Example string value. -/
def strValue : String := "value"

/-- Example invalid value. -/
def strBad : String := "bad"

/-- Example invalid array element. -/
def strTwo : String := "two"

/-- Example string value. -/
def strY : String := "y"

/-- A string rejected by the url check. -/
def strNotUrl : String := "not a url"

/-- A string accepted by the url check. -/
def strUrlOk : String := "https://example.com/x"

/-- The description from the transform unit tests. -/
def descProfile : String := "Profile URL"

/-- The escaped-parentheses URL from the spec's url-repair example. -/
def urlEsc : String := "https://example.com/meeting-\\(2023\\)"

/-- The repaired form of `urlEsc`. -/
def urlFixed : String := "https://example.com/meeting-(2023)"

/-- The Amazon product URL from the url-cleaning unit tests. -/
def amzUrl : String :=
  "https://www.amazon.com/Product-Name-Here/dp/ABCDE01234/ref=sr_1_47?dib=abc123&qid=1640995200"

/-- The cleaned form of `amzUrl`. -/
def amzClean : String := "https://www.amazon.com/Product-Name-Here/dp/ABCDE01234"

/-- A non-Amazon URL containing `ref=`, from the url-cleaning unit tests. -/
def shopUrl : String := "https://shop.example.com/item/ref=special"

/-- A 16-character full-document markdown stand-in. -/
def mdFull : String := "0123456789abcdef"

/-- A 3-character main-content markdown stand-in (under 20% of `mdFull`). -/
def mdMain : String := "abc"

/-- A 10-character full-document markdown stand-in. -/
def mdFull2 : String := "0123456789"

/-- A 4-character main-content markdown stand-in (at least 20% of `mdFull2`). -/
def mdMain2 : String := "abcd"

/-- The `{required: string, optional: number?}` schema from the unit tests. -/
def schemaReqOpt : Schema :=
  .sObject (.cons keyRequired (.sString [] none)
    (.cons keyOptional (.sOptional (.sNumber none) none) .nil)) none

/-- `{required: "value", optional: "bad"}`. -/
def valueReqOpt : Value :=
  .vObj [(keyRequired, .vStr strValue), (keyOptional, .vStr strBad)]

/-- What `safeSanitizedParser` actually returns on `valueReqOpt`. -/
def sanitizedReqOpt : Value :=
  .vObj [(keyRequired, .vStr strValue), (keyOptional, .vUndef)]

/-- `{a: number | null}` object schema. -/
def schemaNullableA : Schema :=
  .sObject (.cons keyA (.sNullable (.sNumber none) none) .nil) none

/-- `{a: null}` object schema (a required property whose only valid value is
null). -/
def schemaNullA : Schema := .sObject (.cons keyA (.sNull none) .nil) none

/-- `{a: string.url()}` object schema. -/
def schemaUrlA : Schema :=
  .sObject (.cons keyA (.sString [SCheck.url] none) .nil) none

/-- `z.string().url().describe("Profile URL")` from the transform tests. -/
def urlProfileSchema : Schema := .sString [SCheck.url] (some descProfile)

/-- `z.array(z.number())`. -/
def numArraySchema : Schema := .sArray (.sNumber none) none

/-- `z.array(z.number().nullable())`. -/
def nullableNumArraySchema : Schema :=
  .sArray (.sNullable (.sNumber none) none) none

/-! ### Basic lemmas about lookups, keys and well-formedness -/

theorem lookupF_cons_self (k : String) (v : Value) (rest : List (String × Value)) :
    lookupF ((k, v) :: rest) k = some v := by
  simp [lookupF]

theorem lookupF_cons_ne (k k2 : String) (v : Value) (rest : List (String × Value))
    (h : ¬ (k = k2)) : lookupF ((k, v) :: rest) k2 = lookupF rest k2 := by
  simp [lookupF, h]

theorem keepPair_true (pv : Value) : keepPair pv true = true := by
  cases pv <;> rfl

theorem keepPair_undef (present : Bool) : keepPair .vUndef present = present := rfl

theorem dupFree_cons {k : String} {ks : List String}
    (h : dupFree (k :: ks) = true) : ¬ (k ∈ ks) ∧ dupFree ks = true := by
  simp [dupFree] at h
  exact h

theorem mem_propsKeys_of_mem_toList : (P : SProps) → (k : String) → (psch : Schema) →
    (k, psch) ∈ P.toList → k ∈ propsKeys P
  | .nil, k, psch, h => by simp [SProps.toList] at h
  | .cons k0 sch0 rest, k, psch, h => by
      simp [SProps.toList] at h
      rcases h with h | h
      · simp [propsKeys, h.1]
      · simp [propsKeys]
        exact Or.inr (mem_propsKeys_of_mem_toList rest k psch h)

theorem wfProps_mem : (P : SProps) → (k : String) → (psch : Schema) →
    wfProps P = true → (k, psch) ∈ P.toList → wfSchema psch = true
  | .nil, k, psch, hw, h => by simp [SProps.toList] at h
  | .cons k0 sch0 rest, k, psch, hw, h => by
      simp [wfProps, Bool.and_eq_true] at hw
      simp [SProps.toList] at h
      rcases h with h | h
      · rw [h.2]; exact hw.1
      · exact wfProps_mem rest k psch hw.2 h

theorem wf_object {props : SProps} {d : Option String}
    (h : wfSchema (.sObject props d) = true) :
    dupFree (propsKeys props) = true ∧ wfProps props = true := by
  simp [wfSchema, Bool.and_eq_true] at h
  exact h

/-! ### Lemmas about `parseItems` -/

theorem parseItems_nil (p : Value → Option Value) : parseItems p [] = some [] := rfl

theorem parseItems_cons (p : Value → Option Value) (it : Value) (rest : List Value) :
    parseItems p (it :: rest) = optListCons (p it) (parseItems p rest) := rfl

theorem parseItems_eq_some {p : Value → Option Value} {it : Value} {rest : List Value}
    {ws : List Value} (h : parseItems p (it :: rest) = some ws) :
    ∃ w tail, p it = some w ∧ parseItems p rest = some tail ∧ ws = w :: tail := by
  rw [parseItems_cons] at h
  unfold optListCons at h
  rcases Option.bind_eq_some.mp h with ⟨w, hw, hmap⟩
  rcases Option.map_eq_some'.mp hmap with ⟨tail, htail, hws⟩
  exact ⟨w, tail, hw, htail, hws.symm⟩

theorem parseItems_of_self {p : Value → Option Value} {ws : List Value}
    (h : ∀ w, w ∈ ws → p w = some w) : parseItems p ws = some ws := by
  induction ws with
  | nil => rfl
  | cons w rest ih =>
      rw [parseItems_cons, h w (by simp)]
      rw [ih (fun w2 hw2 => h w2 (by simp [hw2]))]
      rfl

theorem parseItems_idem {p : Value → Option Value}
    (hp : ∀ v w, p v = some w → p w = some w) :
    ∀ items ws, parseItems p items = some ws → parseItems p ws = some ws := by
  intro items
  induction items with
  | nil =>
      intro ws h
      simp [parseItems_nil] at h
      subst h; rfl
  | cons it rest ih =>
      intro ws h
      rcases parseItems_eq_some h with ⟨w, tail, hw, htail, hws⟩
      subst hws
      rw [parseItems_cons, hp it w hw, ih tail htail]
      rfl

theorem parseItems_mem {p : Value → Option Value} :
    ∀ {items ws : List Value}, parseItems p items = some ws →
      ∀ w, w ∈ ws → ∃ it, it ∈ items ∧ p it = some w := by
  intro items
  induction items with
  | nil =>
      intro ws h w hw
      simp [parseItems_nil] at h
      subst h
      simp at hw
  | cons it rest ih =>
      intro ws h w hw
      rcases parseItems_eq_some h with ⟨w0, tail, hw0, htail, hws⟩
      subst hws
      rcases List.mem_cons.mp hw with h1 | h1
      · subst h1
        exact ⟨it, by simp, hw0⟩
      · rcases ih htail w h1 with ⟨it2, hit2, hp2⟩
        exact ⟨it2, by simp [hit2], hp2⟩

/-! ### The parse result of `null` / `undefined` inputs -/

theorem parse_null_out : (s : Schema) → (r : Value) → parse s .vNull = some r → r = .vNull
  | .sString checks d, r, h => by simp [parse] at h
  | .sNumber d, r, h => by simp [parse] at h
  | .sBoolean d, r, h => by simp [parse] at h
  | .sNull d, r, h => by simp [parse] at h; exact h.symm
  | .sObject props d, r, h => by simp [parse] at h
  | .sArray elem d, r, h => by simp [parse] at h
  | .sOptional inner d, r, h => parse_null_out inner r h
  | .sNullable inner d, r, h => by simp [parse] at h; exact h.symm

theorem parse_undef_out : (s : Schema) → (r : Value) → parse s .vUndef = some r → r = .vUndef
  | .sString checks d, r, h => by simp [parse] at h
  | .sNumber d, r, h => by simp [parse] at h
  | .sBoolean d, r, h => by simp [parse] at h
  | .sNull d, r, h => by simp [parse] at h
  | .sObject props d, r, h => by simp [parse] at h
  | .sArray elem d, r, h => by simp [parse] at h
  | .sOptional inner d, r, h => by simp [parse] at h; exact h.symm
  | .sNullable inner d, r, h => parse_undef_out inner r h

/-- The null sentinel absorbs null inputs for every schema: whether or not
`null` parses under the schema, `safeSanitizedParser` returns `null`. -/
theorem sanitize_eq_of_vNull (s : Schema) :
    safeSanitizedParser s .vNull = (parse s .vNull).getD .vNull := by
  cases s <;> rfl

theorem sanitize_eq_of_vUndef (s : Schema) :
    safeSanitizedParser s .vUndef = (parse s .vUndef).getD .vNull := by
  cases s <;> rfl

theorem sanitize_vNull (s : Schema) : safeSanitizedParser s .vNull = .vNull := by
  rw [sanitize_eq_of_vNull]
  cases h : parse s .vNull with
  | none => rfl
  | some r => simp [parse_null_out s r h]

theorem sanitize_vUndef (s : Schema) :
    safeSanitizedParser s .vUndef = .vUndef ∨ safeSanitizedParser s .vUndef = .vNull := by
  rw [sanitize_eq_of_vUndef]
  cases h : parse s .vUndef with
  | none => right; rfl
  | some r => left; simp [parse_undef_out s r h]

/-! ### Destructuring and key-tracking lemmas for the object loops -/

theorem hasKey_cons (k0 k : String) (v : Value) (rest : List (String × Value)) :
    hasKey ((k0, v) :: rest) k = true ↔ (k0 = k ∨ hasKey rest k = true) := by
  by_cases h : k0 = k <;> simp [hasKey, lookupF, h]

theorem hasKey_of_lookupF_none {fields : List (String × Value)} {k : String}
    (h : lookupF fields k = none) : hasKey fields k = false := by
  simp [hasKey, h]

theorem parseProps_cons_eq_some {k : String} {psch : Schema} {rest : SProps}
    {F WP : List (String × Value)}
    (h : parseProps (.cons k psch rest) F = some WP) :
    ∃ pv tail, parse psch ((lookupF F k).getD .vUndef) = some pv ∧
      parseProps rest F = some tail ∧
      WP = if keepPair pv (hasKey F k) then (k, pv) :: tail else tail := by
  simp only [parseProps] at h
  rcases Option.bind_eq_some.mp h with ⟨pv, hpv, hmap⟩
  rcases Option.map_eq_some'.mp hmap with ⟨tail, htail, hWP⟩
  exact ⟨pv, tail, hpv, htail, hWP.symm⟩

theorem parseProps_keys_sub : (P : SProps) → (F W : List (String × Value)) →
    parseProps P F = some W → ∀ k, hasKey W k = true → k ∈ propsKeys P
  | .nil, F, W, h, k, hk => by
      simp [parseProps] at h
      subst h
      simp [hasKey, lookupF] at hk
  | .cons k0 psch rest, F, W, h, k, hk => by
      rcases parseProps_cons_eq_some h with ⟨pv, tail, hpv, htail, hW⟩
      subst hW
      by_cases hkk : k0 = k
      · simp [propsKeys, hkk]
      · have htk : hasKey tail k = true := by
          by_cases hkeep : keepPair pv (hasKey F k0) = true
          · rw [if_pos hkeep] at hk
            rcases (hasKey_cons k0 k pv tail).mp hk with h1 | h1
            · exact absurd h1 hkk
            · exact h1
          · rw [if_neg hkeep] at hk
            exact hk
        simp only [propsKeys, List.mem_cons]
        exact Or.inr (parseProps_keys_sub rest F tail htail k htk)

theorem processProps_keys_sub : (P : SProps) → (F W : List (String × Value)) →
    processProps P F = some W → ∀ k, hasKey W k = true → k ∈ propsKeys P
  | .nil, F, W, h, k, hk => by
      simp [processProps] at h
      subst h
      simp [hasKey, lookupF] at hk
  | .cons k0 psch rest, F, W, h, k, hk => by
      simp only [processProps] at h
      by_cases hkk : k0 = k
      · simp [propsKeys, hkk]
      · simp only [propsKeys, List.mem_cons]
        refine Or.inr ?_
        split at h
        · split at h
          · split at h
            · exact processProps_keys_sub rest F W h k hk
            · rcases Option.map_eq_some'.mp h with ⟨tail, htail, hW⟩
              subst hW
              rcases (hasKey_cons k0 k _ tail).mp hk with h1 | h1
              · exact absurd h1 hkk
              · exact processProps_keys_sub rest F tail htail k h1
          · split at h
            · rcases Option.map_eq_some'.mp h with ⟨tail, htail, hW⟩
              subst hW
              rcases (hasKey_cons k0 k _ tail).mp hk with h1 | h1
              · exact absurd h1 hkk
              · exact processProps_keys_sub rest F tail htail k h1
            · split at h
              · exact absurd h (by simp)
              · rcases Option.map_eq_some'.mp h with ⟨tail, htail, hW⟩
                subst hW
                rcases (hasKey_cons k0 k _ tail).mp hk with h1 | h1
                · exact absurd h1 hkk
                · exact processProps_keys_sub rest F tail htail k h1
        · exact processProps_keys_sub rest F W h k hk

/-! ### Idempotence of `parse` -/

theorem parse_opt_not_undef {inner : Schema} {d : Option String} {v : Value}
    (h : ¬ (v = .vUndef)) : parse (.sOptional inner d) v = parse inner v := by
  cases v <;> first | exact absurd rfl h | rfl

theorem parse_nullable_not_null {inner : Schema} {d : Option String} {v : Value}
    (h : ¬ (v = .vNull)) : parse (.sNullable inner d) v = parse inner v := by
  cases v <;> first | exact absurd rfl h | rfl

/-- Restored from the agreement hypotheses of one induction step: parsing a
shape against the canonical output built from itself reproduces it. -/
theorem parseProps_idem_aux : (P : SProps) → (F W WP : List (String × Value)) →
    (∀ k psch, (k, psch) ∈ P.toList → ∀ v w, parse psch v = some w → parse psch w = some w) →
    dupFree (propsKeys P) = true →
    parseProps P F = some WP →
    (∀ k, k ∈ propsKeys P → lookupF W k = lookupF WP k) →
    parseProps P W = some WP
  | .nil, F, W, WP, hIH, hnd, hp, hagree => by
      simp [parseProps] at hp
      subst hp
      rfl
  | .cons k psch rest, F, W, WP, hIH, hnd, hp, hagree => by
      rcases parseProps_cons_eq_some hp with ⟨pv, tail, hpv, htail, hWP⟩
      simp only [propsKeys] at hnd hagree
      obtain ⟨hknin, hndrest⟩ := dupFree_cons hnd
      have hmemhead : (k, psch) ∈ (SProps.cons k psch rest).toList := by
        simp [SProps.toList]
      have hIHrest : ∀ k2 psch2, (k2, psch2) ∈ rest.toList →
          ∀ v w, parse psch2 v = some w → parse psch2 w = some w := by
        intro k2 psch2 hm
        exact hIH k2 psch2 (by simp [SProps.toList]; exact Or.inr hm)
      have htailnok : lookupF tail k = none := by
        cases hlt : lookupF tail k with
        | none => rfl
        | some wv =>
            exact absurd
              (parseProps_keys_sub rest F tail htail k (by simp [hasKey, hlt]))
              hknin
      by_cases hkeep : keepPair pv (hasKey F k) = true
      · have hWP2 : WP = (k, pv) :: tail := by rw [hWP, if_pos hkeep]
        have hlWk : lookupF W k = some pv := by
          rw [hagree k (by simp), hWP2, lookupF_cons_self]
        have hppv : parse psch pv = some pv := hIH k psch hmemhead _ pv hpv
        have hagree2 : ∀ k2, k2 ∈ propsKeys rest → lookupF W k2 = lookupF tail k2 := by
          intro k2 hk2
          have hne : ¬ (k = k2) := fun he => hknin (he ▸ hk2)
          rw [hagree k2 (by simp [hk2]), hWP2, lookupF_cons_ne k k2 pv tail hne]
        have hrest : parseProps rest W = some tail :=
          parseProps_idem_aux rest F W tail hIHrest hndrest htail hagree2
        simp only [parseProps, hlWk, Option.getD_some, hppv, Option.some_bind, hrest,
          Option.map_some']
        rw [hWP2]
        have : hasKey W k = true := by simp [hasKey, hlWk]
        rw [this, keepPair_true]
        simp
      · have hpvu : pv = .vUndef := by
          by_contra hne
          exact hkeep (by cases pv <;> first | exact absurd rfl hne | rfl)
        subst hpvu
        have hFk : hasKey F k = false := by
          rw [keepPair_undef] at hkeep
          cases hf : hasKey F k
          · rfl
          · exact absurd hf hkeep
        have hWP2 : WP = tail := by
          rw [hWP, if_neg hkeep]
        have hlWk : lookupF W k = none := by
          rw [hagree k (by simp), hWP2, htailnok]
        have hlFk : lookupF F k = none := by
          cases hlf : lookupF F k with
          | none => rfl
          | some c => simp [hasKey, hlf] at hFk
        rw [hlFk] at hpv
        have hpv2 : parse psch Value.vUndef = some Value.vUndef := by simpa using hpv
        have hagree2 : ∀ k2, k2 ∈ propsKeys rest → lookupF W k2 = lookupF tail k2 := by
          intro k2 hk2
          rw [hagree k2 (by simp [hk2]), hWP2]
        have hrest : parseProps rest W = some tail :=
          parseProps_idem_aux rest F W tail hIHrest hndrest htail hagree2
        have hWk : hasKey W k = false := by simp [hasKey, hlWk]
        simp [parseProps, hlWk, hpv2, hrest, hWk, keepPair, hWP2]

mutual
/-- Zod parse outputs are fixed points of parse (for well-formed schemas):
reparsing a parse result succeeds and returns it unchanged. -/
theorem parse_idem : (s : Schema) → wfSchema s = true → ∀ v w, parse s v = some w →
    parse s w = some w
  | .sString checks d, hwf, v, w, h => by
      cases v <;> try exact Option.noConfusion h
      simp only [parse] at h
      split at h
      · rename_i hall
        injection h with h2
        subst h2
        simp only [parse]
        rw [if_pos hall]
      · exact Option.noConfusion h
  | .sNumber d, hwf, v, w, h => by
      cases v <;> try exact Option.noConfusion h
      injection h with h2
      subst h2
      rfl
  | .sBoolean d, hwf, v, w, h => by
      cases v <;> try exact Option.noConfusion h
      injection h with h2
      subst h2
      rfl
  | .sNull d, hwf, v, w, h => by
      cases v <;> try exact Option.noConfusion h
      injection h with h2
      subst h2
      rfl
  | .sObject props d, hwf, v, w, h => by
      cases v <;> try exact Option.noConfusion h
      simp only [parse] at h
      rcases Option.map_eq_some'.mp h with ⟨WP, hWP, hw⟩
      subst hw
      obtain ⟨hnd, hwP⟩ := wf_object hwf
      simp only [parse]
      rw [parseProps_idem_aux props _ WP WP (parsePropsMemIdem props hwP) hnd hWP
        (fun k hk => rfl)]
      rfl
  | .sArray elem d, hwf, v, w, h => by
      cases v <;> try exact Option.noConfusion h
      simp only [parse] at h
      rcases Option.map_eq_some'.mp h with ⟨ws, hws, hw⟩
      subst hw
      simp only [parse]
      rw [parseItems_idem (fun v2 w2 h2 => parse_idem elem hwf v2 w2 h2) _ ws hws]
      rfl
  | .sOptional inner d, hwf, v, w, h => by
      by_cases hv : v = .vUndef
      · subst hv
        simp only [parse] at h
        injection h with h2
        subst h2
        rfl
      · rw [parse_opt_not_undef hv] at h
        have h3 := parse_idem inner hwf _ w h
        by_cases hw : w = .vUndef
        · subst hw; rfl
        · rw [parse_opt_not_undef hw]
          exact h3
  | .sNullable inner d, hwf, v, w, h => by
      by_cases hv : v = .vNull
      · subst hv
        simp only [parse] at h
        injection h with h2
        subst h2
        rfl
      · rw [parse_nullable_not_null hv] at h
        have h3 := parse_idem inner hwf _ w h
        by_cases hw : w = .vNull
        · subst hw; rfl
        · rw [parse_nullable_not_null hw]
          exact h3

/-- Member form of `parse_idem` over the property schemas of a shape. -/
theorem parsePropsMemIdem : (P : SProps) → wfProps P = true →
    ∀ k psch, (k, psch) ∈ P.toList → ∀ v w, parse psch v = some w → parse psch w = some w
  | .nil, hw, k, psch, h, v, w, hp => by simp [SProps.toList] at h
  | .cons k0 sch0 rest, hw, k, psch, h, v, w, hp => by
      simp only [wfProps, Bool.and_eq_true] at hw
      simp only [SProps.toList, List.mem_cons] at h
      rcases h with h | h
      · have h2 : psch = sch0 := congrArg Prod.snd h
        subst h2
        exact parse_idem psch hw.1 v w hp
      · exact parsePropsMemIdem rest hw.2 k psch h v w hp
end

/-! ### Sanitize outputs are parse fixed points -/

theorem sanitize_self_parse_of_parse (s : Schema) (hwf : wfSchema s = true) (v : Value)
    (he : safeSanitizedParser s v = (parse s v).getD .vNull)
    (h : safeSanitizedParser s v ≠ .vNull) :
    parse s (safeSanitizedParser s v) = some (safeSanitizedParser s v) := by
  rw [he] at h ⊢
  cases hp : parse s v with
  | none => rw [hp] at h; exact absurd rfl h
  | some r =>
      simp only [Option.getD_some]
      exact parse_idem s hwf v r hp

mutual
/-- Every non-null `safeSanitizedParser` result is a fixed point of `parse`:
it parses successfully under the same schema and is returned unchanged. -/
theorem sanitize_self_parse : (s : Schema) → wfSchema s = true → (v : Value) →
    safeSanitizedParser s v ≠ .vNull →
    parse s (safeSanitizedParser s v) = some (safeSanitizedParser s v)
  | .sString checks d, hwf, v, h =>
      sanitize_self_parse_of_parse _ hwf v (by cases v <;> rfl) h
  | .sNumber d, hwf, v, h =>
      sanitize_self_parse_of_parse _ hwf v (by cases v <;> rfl) h
  | .sBoolean d, hwf, v, h =>
      sanitize_self_parse_of_parse _ hwf v (by cases v <;> rfl) h
  | .sNull d, hwf, v, h =>
      sanitize_self_parse_of_parse _ hwf v (by cases v <;> rfl) h
  | .sObject props d, hwf, v, h => by
      cases v with
      | vNull => exact absurd (sanitize_vNull _) h
      | vUndef => exact sanitize_self_parse_of_parse _ hwf _ (sanitize_eq_of_vUndef _) h
      | vObj fields =>
          have he : safeSanitizedParser (.sObject props d) (.vObj fields) =
              ((processProps props fields).bind (fun result =>
                parse (.sObject props d) (.vObj result))).getD .vNull := rfl
          rw [he] at h ⊢
          cases hb : (processProps props fields).bind (fun result =>
              parse (.sObject props d) (.vObj result)) with
          | none => rw [hb] at h; exact absurd rfl h
          | some r =>
              simp only [Option.getD_some]
              rcases Option.bind_eq_some.mp hb with ⟨result, hres, hpr⟩
              exact parse_idem _ hwf _ r hpr
      | vStr s0 => exact absurd rfl h
      | vNum n => exact absurd rfl h
      | vBool b => exact absurd rfl h
      | vArr items => exact absurd rfl h
  | .sArray elem d, hwf, v, h => by
      cases v with
      | vNull => exact absurd (sanitize_vNull _) h
      | vUndef => exact sanitize_self_parse_of_parse _ hwf _ (sanitize_eq_of_vUndef _) h
      | vArr items =>
          have he : safeSanitizedParser (.sArray elem d) (.vArr items) =
              (parse (.sArray elem d)
                (.vArr (sanitizeItems (fun it => safeSanitizedParser elem it) items))).getD
                .vNull := rfl
          rw [he] at h ⊢
          cases hp : parse (.sArray elem d)
              (.vArr (sanitizeItems (fun it => safeSanitizedParser elem it) items)) with
          | none => rw [hp] at h; exact absurd rfl h
          | some r =>
              simp only [Option.getD_some]
              exact parse_idem _ hwf _ r hp
      | vStr s0 => exact absurd rfl h
      | vNum n => exact absurd rfl h
      | vBool b => exact absurd rfl h
      | vObj fields => exact absurd rfl h
  | .sOptional inner d, hwf, v, h => by
      cases v with
      | vNull => exact absurd (sanitize_vNull _) h
      | vUndef => exact sanitize_self_parse_of_parse _ hwf _ (sanitize_eq_of_vUndef _) h
      | vStr s0 => exact sanitize_self_parse_opt_step inner d hwf _ h rfl
      | vNum n => exact sanitize_self_parse_opt_step inner d hwf _ h rfl
      | vBool b => exact sanitize_self_parse_opt_step inner d hwf _ h rfl
      | vArr items => exact sanitize_self_parse_opt_step inner d hwf _ h rfl
      | vObj fields => exact sanitize_self_parse_opt_step inner d hwf _ h rfl
  | .sNullable inner d, hwf, v, h => by
      cases v with
      | vNull => exact absurd (sanitize_vNull _) h
      | vUndef => exact sanitize_self_parse_of_parse _ hwf _ (sanitize_eq_of_vUndef _) h
      | vStr s0 => exact sanitize_self_parse_nullable_step inner d hwf _ h rfl
      | vNum n => exact sanitize_self_parse_nullable_step inner d hwf _ h rfl
      | vBool b => exact sanitize_self_parse_nullable_step inner d hwf _ h rfl
      | vArr items => exact sanitize_self_parse_nullable_step inner d hwf _ h rfl
      | vObj fields => exact sanitize_self_parse_nullable_step inner d hwf _ h rfl

/-- The Optional step of `sanitize_self_parse`, for a value that is neither
null nor undefined (so that the Optional dispatch equation `he` holds). -/
theorem sanitize_self_parse_opt_step (inner : Schema) (d : Option String)
    (hwf : wfSchema (.sOptional inner d) = true) (v : Value)
    (h : safeSanitizedParser (.sOptional inner d) v ≠ .vNull)
    (he : safeSanitizedParser (.sOptional inner d) v =
      if isVNull (safeSanitizedParser inner v) then .vUndef
      else safeSanitizedParser inner v) :
    parse (.sOptional inner d) (safeSanitizedParser (.sOptional inner d) v) =
      some (safeSanitizedParser (.sOptional inner d) v) := by
  rw [he]
  by_cases hq : isVNull (safeSanitizedParser inner v) = true
  · rw [if_pos hq]; rfl
  · rw [if_neg hq]
    have hq2 : safeSanitizedParser inner v ≠ .vNull := by
      intro he2
      rw [he2] at hq
      exact hq rfl
    have hwf2 : wfSchema inner = true := hwf
    have hin := sanitize_self_parse inner hwf2 v hq2
    by_cases hu : safeSanitizedParser inner v = .vUndef
    · rw [hu]; rfl
    · rw [parse_opt_not_undef hu]
      exact hin

/-- The Nullable step of `sanitize_self_parse`, for a value that is neither
null nor undefined (so that the Nullable dispatch equation `he` holds). -/
theorem sanitize_self_parse_nullable_step (inner : Schema) (d : Option String)
    (hwf : wfSchema (.sNullable inner d) = true) (v : Value)
    (h : safeSanitizedParser (.sNullable inner d) v ≠ .vNull)
    (he : safeSanitizedParser (.sNullable inner d) v =
      if isVNull (safeSanitizedParser inner v) then .vNull
      else safeSanitizedParser inner v) :
    parse (.sNullable inner d) (safeSanitizedParser (.sNullable inner d) v) =
      some (safeSanitizedParser (.sNullable inner d) v) := by
  rw [he] at h ⊢
  by_cases hq : isVNull (safeSanitizedParser inner v) = true
  · rw [if_pos hq] at h; exact absurd rfl h
  · rw [if_neg hq] at h ⊢
    have hq2 : safeSanitizedParser inner v ≠ .vNull := by
      intro he2
      rw [he2] at hq
      exact hq rfl
    have hwf2 : wfSchema inner = true := hwf
    have hin := sanitize_self_parse inner hwf2 v hq2
    rw [parse_nullable_not_null hq2]
    exact hin
end

/-! ### Helpers for the idempotence of sanitization -/

theorem isVNull_true_iff {v : Value} : isVNull v = true ↔ v = .vNull := by
  cases v <;> simp [isVNull]

theorem isVNull_false_iff {v : Value} : isVNull v = false ↔ ¬ (v = .vNull) := by
  cases v <;> simp [isVNull]

theorem isZodType_optional_shape {psch : Schema}
    (h : isZodType psch SKind.optionalK = true) :
    ∃ inner d, psch = .sOptional inner d := by
  cases psch <;> first | exact ⟨_, _, rfl⟩ | exact Bool.noConfusion h

theorem isZodType_nullable_shape {psch : Schema}
    (h : isZodType psch SKind.nullableK = true) :
    ∃ inner d, psch = .sNullable inner d := by
  cases psch <;> first | exact ⟨_, _, rfl⟩ | exact Bool.noConfusion h

theorem sanitizeItems_mem {san : Value → Value} {items : List Value} {w : Value}
    (h : w ∈ sanitizeItems san items) :
    ∃ it, it ∈ items ∧ san it = w ∧ isVNull w = false := by
  unfold sanitizeItems at h
  rcases List.mem_filterMap.mp h with ⟨it, hit, hf⟩
  by_cases hn : isVNull (san it) = true
  · rw [if_pos hn] at hf
    exact Option.noConfusion hf
  · rw [if_neg hn] at hf
    injection hf with hf2
    refine ⟨it, hit, hf2, ?_⟩
    rw [← hf2]
    exact Bool.eq_false_iff.mpr hn

theorem sanitizeItems_fixed {san : Value → Value} :
    ∀ {ws : List Value}, (∀ w, w ∈ ws → san w = w ∧ isVNull w = false) →
      sanitizeItems san ws = ws
  | [], _ => rfl
  | w :: rest, h => by
      obtain ⟨hw, hn⟩ := h w (by simp)
      have hrest := sanitizeItems_fixed (fun w2 hw2 => h w2 (List.mem_cons_of_mem w hw2))
      unfold sanitizeItems at hrest ⊢
      simp only [List.filterMap_cons, hw, hn, Bool.false_eq_true, if_false, hrest]

theorem lookupF_none_of_keys_sub {X : List (String × Value)} {k : String} {ks : List String}
    (hsub : ∀ k2, hasKey X k2 = true → k2 ∈ ks) (hnin : ¬ (k ∈ ks)) :
    lookupF X k = none := by
  cases hl : lookupF X k with
  | none => rfl
  | some w => exact absurd (hsub k (by simp [hasKey, hl])) hnin

theorem agree_tail {X XP tail : List (String × Value)} {k : String} {SC : Value}
    {ks : List String} (hknin : ¬ (k ∈ ks))
    (hagree : ∀ k2, k2 ∈ k :: ks → lookupF X k2 = lookupF XP k2)
    (hXP : XP = (k, SC) :: tail) :
    ∀ k2, k2 ∈ ks → lookupF X k2 = lookupF tail k2 := by
  intro k2 hk2
  have hne : ¬ (k = k2) := fun he => hknin (he ▸ hk2)
  rw [hagree k2 (List.mem_cons_of_mem k hk2), hXP, lookupF_cons_ne k k2 SC tail hne]

theorem agree_tail_eq {X XP : List (String × Value)} {k : String} {ks : List String}
    (hagree : ∀ k2, k2 ∈ k :: ks → lookupF X k2 = lookupF XP k2) :
    ∀ k2, k2 ∈ ks → lookupF X k2 = lookupF XP k2 :=
  fun k2 hk2 => hagree k2 (List.mem_cons_of_mem k hk2)

/-- Shared head bookkeeping for the included-property cases of the
re-sanitization argument. -/
theorem resan_head_facts {k : String} {psch : Schema}
    {R RF RP RPrest RFP tailRF : List (String × Value)} {SC pv : Value}
    (hRagreeHead : lookupF R k = lookupF RP k)
    (hRFagreeHead : lookupF RF k = lookupF RFP k)
    (hRP : (k, SC) :: RPrest = RP)
    (hpv : parse psch ((lookupF R k).getD .vUndef) = some pv)
    (hparseSC : parse psch SC = some SC)
    (hRFP : RFP = if keepPair pv (hasKey R k) then (k, pv) :: tailRF else tailRF) :
    RFP = (k, SC) :: tailRF ∧ lookupF RF k = some SC ∧ lookupF R k = some SC := by
  have hlRk : lookupF R k = some SC := by
    rw [hRagreeHead, ← hRP]
    exact lookupF_cons_self k SC RPrest
  rw [hlRk] at hpv
  simp only [Option.getD_some] at hpv
  have hpvSC : pv = SC := Option.some.inj (hpv.symm.trans hparseSC)
  have hKRk : hasKey R k = true := by simp [hasKey, hlRk]
  have hRFP2 : RFP = (k, SC) :: tailRF := by
    rw [hRFP, hpvSC, hKRk, keepPair_true]
    simp
  have hlRFk : lookupF RF k = some SC := by
    rw [hRFagreeHead, hRFP2]
    exact lookupF_cons_self k SC tailRF
  exact ⟨hRFP2, hlRFk, hlRk⟩

/-- Shared ending for the skipped-property cases of the re-sanitization
argument: the head key is bound neither in the original result nor in the
final output, so the re-run skips it as well. -/
theorem resan_skip_case {k : String} {psch : Schema} {rest : SProps}
    {R RF RP RFP tailRF : List (String × Value)} {pv : Value}
    (hknin : ¬ (k ∈ propsKeys rest))
    (hRPsub : ∀ k2, hasKey RP k2 = true → k2 ∈ propsKeys rest)
    (hRagreeHead : lookupF R k = lookupF RP k)
    (hRFagreeHead : lookupF RF k = lookupF RFP k)
    (hpv : parse psch ((lookupF R k).getD .vUndef) = some pv)
    (htailRF : parseProps rest R = some tailRF)
    (hRFP : RFP = if keepPair pv (hasKey R k) then (k, pv) :: tailRF else tailRF)
    (hrec : processProps rest RF = some tailRF) :
    processProps (.cons k psch rest) RF = some RFP := by
  have hRPnone : lookupF RP k = none := lookupF_none_of_keys_sub hRPsub hknin
  have hlRk : lookupF R k = none := hRagreeHead.trans hRPnone
  rw [hlRk] at hpv
  simp only [Option.getD_none] at hpv
  have hpvu : pv = .vUndef := parse_undef_out psch pv hpv
  subst hpvu
  have hKRk : hasKey R k = false := by simp [hasKey, hlRk]
  have hRFP2 : RFP = tailRF := by
    rw [hRFP, hKRk, keepPair_undef]
    simp
  have hRFPnone : lookupF RFP k = none := by
    rw [hRFP2]
    exact lookupF_none_of_keys_sub (parseProps_keys_sub rest R tailRF htailRF) hknin
  have hlRFk : lookupF RF k = none := hRFagreeHead.trans hRFPnone
  have hKRFk : hasKey RF k = false := by simp [hasKey, hlRFk]
  simp only [processProps, hKRFk, Bool.false_eq_true, if_false]
  rw [hRFP2]
  exact hrec

/-- One induction step of the idempotence argument for objects: if the
original run of the property loop produced `RP`, the final parse of `RP`
produced `RFP`, and `R` / `RF` agree with `RP` / `RFP` on every declared
key, then re-running the property loop on `RF` reproduces `RFP` exactly.
The two `hIH` hypotheses provide idempotence and the parse fixed point for
every property schema of the shape. -/
theorem processProps_resan_aux : (P : SProps) →
    (F R RP RF RFP : List (String × Value)) →
    wfProps P = true →
    dupFree (propsKeys P) = true →
    (∀ k psch, (k, psch) ∈ P.toList → ∀ v, safeSanitizedParser psch v ≠ .vNull →
      safeSanitizedParser psch (safeSanitizedParser psch v) = safeSanitizedParser psch v) →
    (∀ k psch, (k, psch) ∈ P.toList → ∀ v, safeSanitizedParser psch v ≠ .vNull →
      parse psch (safeSanitizedParser psch v) = some (safeSanitizedParser psch v)) →
    processProps P F = some RP →
    parseProps P R = some RFP →
    (∀ k, k ∈ propsKeys P → lookupF R k = lookupF RP k) →
    (∀ k, k ∈ propsKeys P → lookupF RF k = lookupF RFP k) →
    processProps P RF = some RFP
  | .nil, F, R, RP, RF, RFP, hwfP, hnd, hIHm, hIHa, h1, h2, hRagree, hRFagree => by
      simp [processProps] at h1
      simp [parseProps] at h2
      subst h1
      subst h2
      rfl
  | .cons k psch rest, F, R, RP, RF, RFP, hwfP, hnd, hIHm, hIHa, h1, h2, hRagree,
      hRFagree => by
      rcases parseProps_cons_eq_some h2 with ⟨pv, tailRF, hpv, htailRF, hRFP⟩
      simp only [propsKeys] at hnd hRagree hRFagree
      obtain ⟨hknin, hndrest⟩ := dupFree_cons hnd
      simp only [wfProps, Bool.and_eq_true] at hwfP
      obtain ⟨hwfhead, hwfrest⟩ := hwfP
      have hmemhead : (k, psch) ∈ (SProps.cons k psch rest).toList :=
        List.mem_cons_self (k, psch) rest.toList
      have hIHmr : ∀ k2 psch2, (k2, psch2) ∈ rest.toList → ∀ v,
          safeSanitizedParser psch2 v ≠ .vNull →
          safeSanitizedParser psch2 (safeSanitizedParser psch2 v) =
            safeSanitizedParser psch2 v :=
        fun k2 psch2 hm => hIHm k2 psch2 (List.mem_cons_of_mem (k, psch) hm)
      have hIHar : ∀ k2 psch2, (k2, psch2) ∈ rest.toList → ∀ v,
          safeSanitizedParser psch2 v ≠ .vNull →
          parse psch2 (safeSanitizedParser psch2 v) =
            some (safeSanitizedParser psch2 v) :=
        fun k2 psch2 hm => hIHa k2 psch2 (List.mem_cons_of_mem (k, psch) hm)
      simp only [processProps] at h1
      by_cases hFk : hasKey F k = true
      · rw [if_pos hFk] at h1
        by_cases hopt : isZodType psch SKind.optionalK = true
        · rw [if_pos hopt] at h1
          obtain ⟨inner, d2, hpsch⟩ := isZodType_optional_shape hopt
          by_cases hscn : isVNull
              (safeSanitizedParser psch ((lookupF F k).getD .vUndef)) = true
          · -- optional property sanitized to null in the original run: skipped
            rw [if_pos hscn] at h1
            have hrec : processProps rest RF = some tailRF :=
              processProps_resan_aux rest F R RP RF tailRF hwfrest hndrest hIHmr hIHar
                h1 htailRF (agree_tail_eq hRagree)
                (fun k2 hk2 => by
                  rw [agree_tail_eq hRFagree k2 hk2, hRFP]
                  have hRPnone : lookupF RP k = none :=
                    lookupF_none_of_keys_sub (processProps_keys_sub rest F RP h1) hknin
                  have hlRk : lookupF R k = none :=
                    (hRagree k (List.mem_cons_self k _)).trans hRPnone
                  rw [hlRk] at hpv
                  simp only [Option.getD_none] at hpv
                  have hpvu : pv = .vUndef := parse_undef_out psch pv hpv
                  rw [hpvu]
                  have hKRk : hasKey R k = false := by simp [hasKey, hlRk]
                  rw [hKRk, keepPair_undef]
                  simp)
            exact resan_skip_case hknin (processProps_keys_sub rest F RP h1)
              (hRagree k (List.mem_cons_self k _)) (hRFagree k (List.mem_cons_self k _))
              hpv htailRF hRFP hrec
          · -- optional property included in the original run
            rw [if_neg hscn] at h1
            rcases Option.map_eq_some'.mp h1 with ⟨RPrest, hRPrest, hRP⟩
            have hSCne : safeSanitizedParser psch ((lookupF F k).getD .vUndef) ≠ .vNull :=
              fun he => hscn (by rw [he]; rfl)
            have hparseSC := hIHa k psch hmemhead _ hSCne
            obtain ⟨hRFP2, hlRFk, hlRk⟩ := resan_head_facts
              (hRagree k (List.mem_cons_self k _)) (hRFagree k (List.mem_cons_self k _))
              hRP hpv hparseSC hRFP
            have hSC2 := hIHm k psch hmemhead _ hSCne
            have hrec : processProps rest RF = some tailRF :=
              processProps_resan_aux rest F R RPrest RF tailRF hwfrest hndrest hIHmr hIHar
                hRPrest htailRF (agree_tail hknin hRagree hRP.symm)
                (agree_tail hknin hRFagree hRFP2)
            have hKRFk : hasKey RF k = true := by simp [hasKey, hlRFk]
            simp only [processProps, hKRFk, if_true, hlRFk, Option.getD_some,
              if_pos hopt, hSC2]
            have hscn2 : isVNull
                (safeSanitizedParser psch ((lookupF F k).getD .vUndef)) = false :=
              Bool.eq_false_iff.mpr hscn
            rw [hscn2]
            simp only [Bool.false_eq_true, if_false, hrec, Option.map_some']
            rw [hRFP2]
        · rw [if_neg hopt] at h1
          by_cases hnul : isZodType psch SKind.nullableK = true
          · -- nullable property: always included in the original run
            rw [if_pos hnul] at h1
            obtain ⟨inner, d2, hpsch⟩ := isZodType_nullable_shape hnul
            rcases Option.map_eq_some'.mp h1 with ⟨RPrest, hRPrest, hRP⟩
            have hparseSC : parse psch
                (safeSanitizedParser psch ((lookupF F k).getD .vUndef)) =
                some (safeSanitizedParser psch ((lookupF F k).getD .vUndef)) := by
              by_cases hSCn : safeSanitizedParser psch ((lookupF F k).getD .vUndef) = .vNull
              · rw [hSCn, hpsch]
                rfl
              · exact hIHa k psch hmemhead _ hSCn
            obtain ⟨hRFP2, hlRFk, hlRk⟩ := resan_head_facts
              (hRagree k (List.mem_cons_self k _)) (hRFagree k (List.mem_cons_self k _))
              hRP hpv hparseSC hRFP
            have hSC2 : safeSanitizedParser psch
                (safeSanitizedParser psch ((lookupF F k).getD .vUndef)) =
                safeSanitizedParser psch ((lookupF F k).getD .vUndef) := by
              by_cases hSCn : safeSanitizedParser psch ((lookupF F k).getD .vUndef) = .vNull
              · rw [hSCn]
                exact sanitize_vNull psch
              · exact hIHm k psch hmemhead _ hSCn
            have hrec : processProps rest RF = some tailRF :=
              processProps_resan_aux rest F R RPrest RF tailRF hwfrest hndrest hIHmr hIHar
                hRPrest htailRF (agree_tail hknin hRagree hRP.symm)
                (agree_tail hknin hRFagree hRFP2)
            have hKRFk : hasKey RF k = true := by simp [hasKey, hlRFk]
            simp only [processProps, hKRFk, if_true, hlRFk, Option.getD_some,
              if_neg hopt, if_pos hnul, hSC2, hrec, Option.map_some']
            rw [hRFP2]
          · -- required property: must have sanitized to non-null
            rw [if_neg hnul] at h1
            by_cases hscn : isVNull
                (safeSanitizedParser psch ((lookupF F k).getD .vUndef)) = true
            · rw [if_pos hscn] at h1
              exact Option.noConfusion h1
            · rw [if_neg hscn] at h1
              rcases Option.map_eq_some'.mp h1 with ⟨RPrest, hRPrest, hRP⟩
              have hSCne : safeSanitizedParser psch ((lookupF F k).getD .vUndef) ≠
                  .vNull := fun he => hscn (by rw [he]; rfl)
              have hparseSC := hIHa k psch hmemhead _ hSCne
              obtain ⟨hRFP2, hlRFk, hlRk⟩ := resan_head_facts
                (hRagree k (List.mem_cons_self k _)) (hRFagree k (List.mem_cons_self k _))
                hRP hpv hparseSC hRFP
              have hSC2 := hIHm k psch hmemhead _ hSCne
              have hrec : processProps rest RF = some tailRF :=
                processProps_resan_aux rest F R RPrest RF tailRF hwfrest hndrest hIHmr
                  hIHar hRPrest htailRF (agree_tail hknin hRagree hRP.symm)
                  (agree_tail hknin hRFagree hRFP2)
              have hKRFk : hasKey RF k = true := by simp [hasKey, hlRFk]
              simp only [processProps, hKRFk, if_true, hlRFk, Option.getD_some,
                if_neg hopt, if_neg hnul, hSC2]
              have hscn2 : isVNull
                  (safeSanitizedParser psch ((lookupF F k).getD .vUndef)) = false :=
                Bool.eq_false_iff.mpr hscn
              rw [hscn2]
              simp only [Bool.false_eq_true, if_false, hrec, Option.map_some']
              rw [hRFP2]
      · -- property absent from the raw object: skipped by the original run
        have hFk2 : hasKey F k = false := Bool.eq_false_iff.mpr hFk
        rw [if_neg hFk] at h1
        have hrec : processProps rest RF = some tailRF :=
          processProps_resan_aux rest F R RP RF tailRF hwfrest hndrest hIHmr hIHar
            h1 htailRF (agree_tail_eq hRagree)
            (fun k2 hk2 => by
              rw [agree_tail_eq hRFagree k2 hk2, hRFP]
              have hRPnone : lookupF RP k = none :=
                lookupF_none_of_keys_sub (processProps_keys_sub rest F RP h1) hknin
              have hlRk : lookupF R k = none :=
                (hRagree k (List.mem_cons_self k _)).trans hRPnone
              rw [hlRk] at hpv
              simp only [Option.getD_none] at hpv
              have hpvu : pv = .vUndef := parse_undef_out psch pv hpv
              rw [hpvu]
              have hKRk : hasKey R k = false := by simp [hasKey, hlRk]
              rw [hKRk, keepPair_undef]
              simp)
        exact resan_skip_case hknin (processProps_keys_sub rest F RP h1)
          (hRagree k (List.mem_cons_self k _)) (hRFagree k (List.mem_cons_self k _))
          hpv htailRF hRFP hrec

/-! ### Idempotence of sanitization -/

theorem san_opt_undef (inner : Schema) (d : Option String) :
    safeSanitizedParser (.sOptional inner d) .vUndef = .vUndef := rfl

theorem san_opt_eq (inner : Schema) (d : Option String) (w : Value)
    (hwn : ¬ (w = .vNull)) (hwu : ¬ (w = .vUndef)) :
    safeSanitizedParser (.sOptional inner d) w =
      if isVNull (safeSanitizedParser inner w) then .vUndef
      else safeSanitizedParser inner w := by
  cases w <;> first | exact absurd rfl hwn | exact absurd rfl hwu | rfl

theorem san_nullable_eq (inner : Schema) (d : Option String) (w : Value)
    (hwn : ¬ (w = .vNull)) (hwu : ¬ (w = .vUndef)) :
    safeSanitizedParser (.sNullable inner d) w =
      if isVNull (safeSanitizedParser inner w) then .vNull
      else safeSanitizedParser inner w := by
  cases w <;> first | exact absurd rfl hwn | exact absurd rfl hwu | rfl

theorem sanitize_idem_undef (s : Schema)
    (h : safeSanitizedParser s .vUndef ≠ .vNull) :
    safeSanitizedParser s (safeSanitizedParser s .vUndef) =
      safeSanitizedParser s .vUndef := by
  rcases sanitize_vUndef s with h1 | h1
  · rw [h1]
    exact h1
  · exact absurd h1 h

theorem sanitize_idem_prim (s : Schema) (hwf : wfSchema s = true)
    (heq : ∀ w, safeSanitizedParser s w = (parse s w).getD .vNull) (v : Value)
    (h : safeSanitizedParser s v ≠ .vNull) :
    safeSanitizedParser s (safeSanitizedParser s v) = safeSanitizedParser s v := by
  rw [heq v] at h ⊢
  cases hp : parse s v with
  | none => rw [hp] at h; exact absurd rfl h
  | some r =>
      simp only [Option.getD_some] at h ⊢
      rw [heq r, parse_idem s hwf v r hp]
      rfl

mutual
/-- Idempotence of `safeSanitizedParser`: re-sanitizing a successful result
reproduces it exactly. -/
theorem sanitize_idem : (s : Schema) → wfSchema s = true → (v : Value) →
    safeSanitizedParser s v ≠ .vNull →
    safeSanitizedParser s (safeSanitizedParser s v) = safeSanitizedParser s v
  | .sString checks d, hwf, v, h =>
      sanitize_idem_prim _ hwf (fun w => by cases w <;> rfl) v h
  | .sNumber d, hwf, v, h =>
      sanitize_idem_prim _ hwf (fun w => by cases w <;> rfl) v h
  | .sBoolean d, hwf, v, h =>
      sanitize_idem_prim _ hwf (fun w => by cases w <;> rfl) v h
  | .sNull d, hwf, v, h =>
      sanitize_idem_prim _ hwf (fun w => by cases w <;> rfl) v h
  | .sObject props d, hwf, v, h => by
      cases v with
      | vNull => exact absurd (sanitize_vNull _) h
      | vUndef => exact sanitize_idem_undef _ h
      | vStr s0 => exact absurd rfl h
      | vNum n => exact absurd rfl h
      | vBool b => exact absurd rfl h
      | vArr items => exact absurd rfl h
      | vObj F =>
          have he : safeSanitizedParser (.sObject props d) (.vObj F) =
              ((processProps props F).bind (fun result =>
                parse (.sObject props d) (.vObj result))).getD .vNull := rfl
          rw [he] at h
          cases hb : (processProps props F).bind (fun result =>
              parse (.sObject props d) (.vObj result)) with
          | none => rw [hb] at h; exact absurd rfl h
          | some r =>
              rw [hb] at h
              simp only [Option.getD_some] at h
              rcases Option.bind_eq_some.mp hb with ⟨RP, hRP, hpr⟩
              have hprc := hpr
              simp only [parse] at hprc
              rcases Option.map_eq_some'.mp hprc with ⟨RFP, hRFP, hr⟩
              obtain ⟨hnd, hwfP⟩ := wf_object hwf
              have hIHm := sanitizeMemIdem props hwfP
              have hIHa : ∀ k psch, (k, psch) ∈ props.toList → ∀ w,
                  safeSanitizedParser psch w ≠ .vNull →
                  parse psch (safeSanitizedParser psch w) =
                    some (safeSanitizedParser psch w) :=
                fun k psch hm w hw =>
                  sanitize_self_parse psch (wfProps_mem props k psch hwfP hm) w hw
              have hre : processProps props RFP = some RFP :=
                processProps_resan_aux props F RP RP RFP RFP hwfP hnd hIHm hIHa hRP hRFP
                  (fun k hk => rfl) (fun k hk => rfl)
              have hpr2 : parse (.sObject props d) (.vObj RP) = some (.vObj RFP) := by
                rw [hpr, ← hr]
              rw [he, hb]
              simp only [Option.getD_some]
              rw [← hr]
              have he2 : safeSanitizedParser (.sObject props d) (.vObj RFP) =
                  ((processProps props RFP).bind (fun result =>
                    parse (.sObject props d) (.vObj result))).getD .vNull := rfl
              rw [he2, hre]
              simp only [Option.some_bind]
              rw [parse_idem _ hwf _ _ hpr2]
              rfl
  | .sArray elem d, hwf, v, h => by
      cases v with
      | vNull => exact absurd (sanitize_vNull _) h
      | vUndef => exact sanitize_idem_undef _ h
      | vStr s0 => exact absurd rfl h
      | vNum n => exact absurd rfl h
      | vBool b => exact absurd rfl h
      | vObj fields => exact absurd rfl h
      | vArr items =>
          have he : safeSanitizedParser (.sArray elem d) (.vArr items) =
              (parse (.sArray elem d)
                (.vArr (sanitizeItems (fun it => safeSanitizedParser elem it)
                  items))).getD .vNull := rfl
          rw [he] at h
          cases hp : parse (.sArray elem d)
              (.vArr (sanitizeItems (fun it => safeSanitizedParser elem it) items)) with
          | none => rw [hp] at h; exact absurd rfl h
          | some r =>
              rw [hp] at h
              simp only [Option.getD_some] at h
              have hself : ∀ w, w ∈ sanitizeItems
                  (fun it => safeSanitizedParser elem it) items →
                  parse elem w = some w := by
                intro w hw
                rcases sanitizeItems_mem hw with ⟨it, hit, hsan, hnn⟩
                rw [← hsan]
                exact sanitize_self_parse elem hwf it
                  (by rw [hsan]; exact isVNull_false_iff.mp hnn)
              have hPS : parse (.sArray elem d)
                  (.vArr (sanitizeItems (fun it => safeSanitizedParser elem it) items)) =
                  some (.vArr (sanitizeItems
                    (fun it => safeSanitizedParser elem it) items)) := by
                simp only [parse]
                rw [parseItems_of_self hself]
                rfl
              have hrS : r = .vArr (sanitizeItems
                  (fun it => safeSanitizedParser elem it) items) :=
                Option.some.inj (hp.symm.trans hPS)
              rw [he, hp]
              simp only [Option.getD_some]
              rw [hrS]
              have hSS : sanitizeItems (fun it => safeSanitizedParser elem it)
                  (sanitizeItems (fun it => safeSanitizedParser elem it) items) =
                  sanitizeItems (fun it => safeSanitizedParser elem it) items := by
                apply sanitizeItems_fixed
                intro w hw
                rcases sanitizeItems_mem hw with ⟨it, hit, hsan, hnn⟩
                refine ⟨?_, hnn⟩
                rw [← hsan]
                exact sanitize_idem elem hwf it (by rw [hsan]; exact isVNull_false_iff.mp hnn)
              have he2 : safeSanitizedParser (.sArray elem d)
                  (.vArr (sanitizeItems (fun it => safeSanitizedParser elem it) items)) =
                  (parse (.sArray elem d)
                    (.vArr (sanitizeItems (fun it => safeSanitizedParser elem it)
                      (sanitizeItems (fun it => safeSanitizedParser elem it)
                        items)))).getD .vNull := rfl
              rw [he2, hSS, hPS]
              rfl
  | .sOptional inner d, hwf, v, h => by
      cases v with
      | vNull => exact absurd (sanitize_vNull _) h
      | vUndef => exact sanitize_idem_undef _ h
      | vStr s0 => exact sanitize_idem_opt_step inner d hwf _ h rfl
      | vNum n => exact sanitize_idem_opt_step inner d hwf _ h rfl
      | vBool b => exact sanitize_idem_opt_step inner d hwf _ h rfl
      | vArr items => exact sanitize_idem_opt_step inner d hwf _ h rfl
      | vObj fields => exact sanitize_idem_opt_step inner d hwf _ h rfl
  | .sNullable inner d, hwf, v, h => by
      cases v with
      | vNull => exact absurd (sanitize_vNull _) h
      | vUndef => exact sanitize_idem_undef _ h
      | vStr s0 => exact sanitize_idem_nullable_step inner d hwf _ h rfl
      | vNum n => exact sanitize_idem_nullable_step inner d hwf _ h rfl
      | vBool b => exact sanitize_idem_nullable_step inner d hwf _ h rfl
      | vArr items => exact sanitize_idem_nullable_step inner d hwf _ h rfl
      | vObj fields => exact sanitize_idem_nullable_step inner d hwf _ h rfl

/-- Member form of `sanitize_idem` over the property schemas of a shape. -/
theorem sanitizeMemIdem : (P : SProps) → wfProps P = true →
    ∀ k psch, (k, psch) ∈ P.toList → ∀ v, safeSanitizedParser psch v ≠ .vNull →
      safeSanitizedParser psch (safeSanitizedParser psch v) = safeSanitizedParser psch v
  | .nil, hw, k, psch, h, v, hv => by simp [SProps.toList] at h
  | .cons k0 sch0 rest, hw, k, psch, h, v, hv => by
      simp only [wfProps, Bool.and_eq_true] at hw
      simp only [SProps.toList, List.mem_cons] at h
      rcases h with h | h
      · have h2 : psch = sch0 := congrArg Prod.snd h
        subst h2
        exact sanitize_idem psch hw.1 v hv
      · exact sanitizeMemIdem rest hw.2 k psch h v hv

/-- The Optional step of `sanitize_idem` for values that are neither null
nor undefined. -/
theorem sanitize_idem_opt_step (inner : Schema) (d : Option String)
    (hwf : wfSchema (.sOptional inner d) = true) (v : Value)
    (h : safeSanitizedParser (.sOptional inner d) v ≠ .vNull)
    (he : safeSanitizedParser (.sOptional inner d) v =
      if isVNull (safeSanitizedParser inner v) then .vUndef
      else safeSanitizedParser inner v) :
    safeSanitizedParser (.sOptional inner d)
      (safeSanitizedParser (.sOptional inner d) v) =
      safeSanitizedParser (.sOptional inner d) v := by
  by_cases hq : isVNull (safeSanitizedParser inner v) = true
  · rw [he, if_pos hq]
    exact san_opt_undef inner d
  · rw [he, if_neg hq]
    have hq2 : safeSanitizedParser inner v ≠ .vNull := fun he2 => hq (by rw [he2]; rfl)
    have hwf2 : wfSchema inner = true := hwf
    have hidem := sanitize_idem inner hwf2 v hq2
    by_cases hu : safeSanitizedParser inner v = .vUndef
    · rw [hu]
      exact san_opt_undef inner d
    · rw [san_opt_eq inner d _ hq2 hu, hidem, if_neg hq]

/-- The Nullable step of `sanitize_idem` for values that are neither null
nor undefined. -/
theorem sanitize_idem_nullable_step (inner : Schema) (d : Option String)
    (hwf : wfSchema (.sNullable inner d) = true) (v : Value)
    (h : safeSanitizedParser (.sNullable inner d) v ≠ .vNull)
    (he : safeSanitizedParser (.sNullable inner d) v =
      if isVNull (safeSanitizedParser inner v) then .vNull
      else safeSanitizedParser inner v) :
    safeSanitizedParser (.sNullable inner d)
      (safeSanitizedParser (.sNullable inner d) v) =
      safeSanitizedParser (.sNullable inner d) v := by
  by_cases hq : isVNull (safeSanitizedParser inner v) = true
  · rw [he, if_pos hq] at h
    exact absurd rfl h
  · rw [he, if_neg hq]
    have hq2 : safeSanitizedParser inner v ≠ .vNull := fun he2 => hq (by rw [he2]; rfl)
    have hwf2 : wfSchema inner = true := hwf
    have hidem := sanitize_idem inner hwf2 v hq2
    by_cases hu : safeSanitizedParser inner v = .vUndef
    · rw [hu]
      have hp := sanitize_self_parse inner hwf2 v hq2
      rw [hu] at hp
      rw [sanitize_eq_of_vUndef]
      have hpe : parse (.sNullable inner d) .vUndef = parse inner .vUndef := rfl
      rw [hpe, hp]
      rfl
    · rw [san_nullable_eq inner d _ hq2 hu, hidem, if_neg hq]
end

/-! ### Output shapes and lookup tracking for the claim proofs -/

theorem parse_out_null : (s : Schema) → (v : Value) → parse s v = some .vNull → v = .vNull
  | .sString checks d, v, h => by
      cases v <;> try exact Option.noConfusion h
      simp only [parse] at h
      split at h
      · injection h
      · exact Option.noConfusion h
  | .sNumber d, v, h => by
      cases v <;> try exact Option.noConfusion h
      injection h
  | .sBoolean d, v, h => by
      cases v <;> try exact Option.noConfusion h
      injection h
  | .sNull d, v, h => by
      cases v <;> try exact Option.noConfusion h
      rfl
  | .sObject props d, v, h => by
      cases v <;> try exact Option.noConfusion h
      simp only [parse] at h
      rcases Option.map_eq_some'.mp h with ⟨W, hW, hw⟩
      exact Value.noConfusion hw
  | .sArray elem d, v, h => by
      cases v <;> try exact Option.noConfusion h
      simp only [parse] at h
      rcases Option.map_eq_some'.mp h with ⟨W, hW, hw⟩
      exact Value.noConfusion hw
  | .sOptional inner d, v, h => by
      by_cases hv : v = .vUndef
      · subst hv
        simp only [parse] at h
        injection h
      · rw [parse_opt_not_undef hv] at h
        exact parse_out_null inner v h
  | .sNullable inner d, v, h => by
      by_cases hv : v = .vNull
      · exact hv
      · rw [parse_nullable_not_null hv] at h
        exact parse_out_null inner v h

theorem sanitize_object_eq (props : SProps) (d : Option String)
    (fields : List (String × Value)) :
    safeSanitizedParser (.sObject props d) (.vObj fields) =
      ((processProps props fields).bind (fun result =>
        parse (.sObject props d) (.vObj result))).getD .vNull := rfl

theorem sanitize_object_of_processProps_none {props : SProps} {d : Option String}
    {fields : List (String × Value)} (h : processProps props fields = none) :
    safeSanitizedParser (.sObject props d) (.vObj fields) = .vNull := by
  rw [sanitize_object_eq, h]
  rfl

theorem sanitize_object_eq_vObj {props : SProps} {d : Option String}
    {fields out : List (String × Value)}
    (h : safeSanitizedParser (.sObject props d) (.vObj fields) = .vObj out) :
    ∃ result, processProps props fields = some result ∧
      parseProps props result = some out := by
  rw [sanitize_object_eq] at h
  cases hb : (processProps props fields).bind (fun result =>
      parse (.sObject props d) (.vObj result)) with
  | none => rw [hb] at h; exact absurd h (by simp)
  | some r =>
      rw [hb] at h
      simp only [Option.getD_some] at h
      rcases Option.bind_eq_some.mp hb with ⟨result, hres, hpr⟩
      subst h
      simp only [parse] at hpr
      rcases Option.map_eq_some'.mp hpr with ⟨out2, hout2, ho⟩
      have : out2 = out := by injection ho
      subst this
      exact ⟨result, hres, hout2⟩

/-- A required property whose present value sanitizes to null makes the
whole property loop throw, wherever the property sits in the shape. -/
theorem processProps_req_fail : (P : SProps) →
    ∀ (F : List (String × Value)) (k : String) (psch : Schema) (c : Value),
    (k, psch) ∈ P.toList →
    isZodType psch SKind.optionalK = false →
    isZodType psch SKind.nullableK = false →
    lookupF F k = some c →
    safeSanitizedParser psch c = .vNull →
    processProps P F = none
  | .nil, F, k, psch, c, hm, hno, hnn, hc, hfail => by simp [SProps.toList] at hm
  | .cons k0 psch0 rest, F, k, psch, c, hm, hno, hnn, hc, hfail => by
      simp only [SProps.toList, List.mem_cons] at hm
      rcases hm with hm | hm
      · have hk : k = k0 := congrArg Prod.fst hm
        have hp : psch = psch0 := congrArg Prod.snd hm
        subst hk
        subst hp
        have hK : hasKey F k = true := by simp [hasKey, hc]
        have hcc : (lookupF F k).getD .vUndef = c := by rw [hc]; rfl
        simp only [processProps, hK, if_true, hno, hnn, Bool.false_eq_true, if_false,
          hcc, hfail]
        rfl
      · have hrest : processProps rest F = none :=
          processProps_req_fail rest F k psch c hm hno hnn hc hfail
        simp only [processProps, hrest]
        split
        · split
          · split
            · rfl
            · simp
          · split
            · simp
            · split
              · rfl
              · simp
        · rfl

/-- The binding that the property loop records for an Optional property that
is present in the raw object. -/
theorem processProps_lookup_opt : (P : SProps) →
    ∀ (F R : List (String × Value)) (k : String) (psch : Schema) (c : Value),
    dupFree (propsKeys P) = true →
    processProps P F = some R →
    (k, psch) ∈ P.toList →
    isZodType psch SKind.optionalK = true →
    lookupF F k = some c →
    lookupF R k = (if isVNull (safeSanitizedParser psch c) then none
      else some (safeSanitizedParser psch c))
  | .nil, F, R, k, psch, c, hnd, h, hm, hopt, hc => by simp [SProps.toList] at hm
  | .cons k0 psch0 rest, F, R, k, psch, c, hnd, h, hm, hopt, hc => by
      simp only [propsKeys] at hnd
      obtain ⟨hknin, hndrest⟩ := dupFree_cons hnd
      simp only [SProps.toList, List.mem_cons] at hm
      simp only [processProps] at h
      rcases hm with hm | hm
      · have hk : k = k0 := congrArg Prod.fst hm
        have hp : psch = psch0 := congrArg Prod.snd hm
        subst hk
        subst hp
        have hK : hasKey F k = true := by simp [hasKey, hc]
        have hcc : (lookupF F k).getD .vUndef = c := by rw [hc]; rfl
        rw [if_pos hK, if_pos hopt, hcc] at h
        by_cases hn : isVNull (safeSanitizedParser psch c) = true
        · rw [if_pos hn] at h
          rw [if_pos hn]
          exact lookupF_none_of_keys_sub (processProps_keys_sub rest F R h) hknin
        · rw [if_neg hn] at h
          rcases Option.map_eq_some'.mp h with ⟨tail, htail, hR⟩
          rw [if_neg hn, ← hR]
          exact lookupF_cons_self k _ tail
      · have hkk : ¬ (k0 = k) := by
          intro he
          exact hknin (he ▸ mem_propsKeys_of_mem_toList rest k psch hm)
        split at h
        · split at h
          · split at h
            · exact processProps_lookup_opt rest F R k psch c hndrest h hm hopt hc
            · rcases Option.map_eq_some'.mp h with ⟨tail, htail, hR⟩
              rw [← hR, lookupF_cons_ne k0 k _ tail hkk]
              exact processProps_lookup_opt rest F tail k psch c hndrest htail hm hopt hc
          · split at h
            · rcases Option.map_eq_some'.mp h with ⟨tail, htail, hR⟩
              rw [← hR, lookupF_cons_ne k0 k _ tail hkk]
              exact processProps_lookup_opt rest F tail k psch c hndrest htail hm hopt hc
            · split at h
              · exact Option.noConfusion h
              · rcases Option.map_eq_some'.mp h with ⟨tail, htail, hR⟩
                rw [← hR, lookupF_cons_ne k0 k _ tail hkk]
                exact processProps_lookup_opt rest F tail k psch c hndrest htail hm hopt hc
        · exact processProps_lookup_opt rest F R k psch c hndrest h hm hopt hc

/-- The binding that the property loop records for a Nullable property that
is present in the raw object. -/
theorem processProps_lookup_nullable : (P : SProps) →
    ∀ (F R : List (String × Value)) (k : String) (psch : Schema) (c : Value),
    dupFree (propsKeys P) = true →
    processProps P F = some R →
    (k, psch) ∈ P.toList →
    isZodType psch SKind.nullableK = true →
    lookupF F k = some c →
    lookupF R k = some (safeSanitizedParser psch c)
  | .nil, F, R, k, psch, c, hnd, h, hm, hnul, hc => by simp [SProps.toList] at hm
  | .cons k0 psch0 rest, F, R, k, psch, c, hnd, h, hm, hnul, hc => by
      simp only [propsKeys] at hnd
      obtain ⟨hknin, hndrest⟩ := dupFree_cons hnd
      simp only [SProps.toList, List.mem_cons] at hm
      simp only [processProps] at h
      rcases hm with hm | hm
      · have hk : k = k0 := congrArg Prod.fst hm
        have hp : psch = psch0 := congrArg Prod.snd hm
        subst hk
        subst hp
        obtain ⟨inner, d2, hshape⟩ := isZodType_nullable_shape hnul
        have hopt : isZodType psch SKind.optionalK = false := by rw [hshape]; rfl
        have hK : hasKey F k = true := by simp [hasKey, hc]
        have hcc : (lookupF F k).getD .vUndef = c := by rw [hc]; rfl
        rw [if_pos hK, if_neg (by rw [hopt]; simp), if_pos hnul, hcc] at h
        rcases Option.map_eq_some'.mp h with ⟨tail, htail, hR⟩
        rw [← hR]
        exact lookupF_cons_self k _ tail
      · have hkk : ¬ (k0 = k) := by
          intro he
          exact hknin (he ▸ mem_propsKeys_of_mem_toList rest k psch hm)
        split at h
        · split at h
          · split at h
            · exact processProps_lookup_nullable rest F R k psch c hndrest h hm hnul hc
            · rcases Option.map_eq_some'.mp h with ⟨tail, htail, hR⟩
              rw [← hR, lookupF_cons_ne k0 k _ tail hkk]
              exact processProps_lookup_nullable rest F tail k psch c hndrest htail hm
                hnul hc
          · split at h
            · rcases Option.map_eq_some'.mp h with ⟨tail, htail, hR⟩
              rw [← hR, lookupF_cons_ne k0 k _ tail hkk]
              exact processProps_lookup_nullable rest F tail k psch c hndrest htail hm
                hnul hc
            · split at h
              · exact Option.noConfusion h
              · rcases Option.map_eq_some'.mp h with ⟨tail, htail, hR⟩
                rw [← hR, lookupF_cons_ne k0 k _ tail hkk]
                exact processProps_lookup_nullable rest F tail k psch c hndrest htail hm
                  hnul hc
        · exact processProps_lookup_nullable rest F R k psch c hndrest h hm hnul hc

/-- Key tracking through the final object parse: a declared key bound to `w`
in the intermediate result appears in the parse output bound to the parsed
value of `w`. -/
theorem parseProps_lookup : (P : SProps) →
    ∀ (R out : List (String × Value)) (k : String) (psch : Schema) (w pw : Value),
    dupFree (propsKeys P) = true →
    parseProps P R = some out →
    (k, psch) ∈ P.toList →
    lookupF R k = some w →
    parse psch w = some pw →
    lookupF out k = some pw
  | .nil, R, out, k, psch, w, pw, hnd, h, hm, hw, hpw => by simp [SProps.toList] at hm
  | .cons k0 psch0 rest, R, out, k, psch, w, pw, hnd, h, hm, hw, hpw => by
      simp only [propsKeys] at hnd
      obtain ⟨hknin, hndrest⟩ := dupFree_cons hnd
      simp only [SProps.toList, List.mem_cons] at hm
      rcases parseProps_cons_eq_some h with ⟨pv, tail, hpv, htail, hout⟩
      rcases hm with hm | hm
      · have hk : k = k0 := congrArg Prod.fst hm
        have hp : psch = psch0 := congrArg Prod.snd hm
        subst hk
        subst hp
        rw [hw] at hpv
        simp only [Option.getD_some] at hpv
        have hpveq : pv = pw := Option.some.inj (hpv.symm.trans hpw)
        subst hpveq
        have hK : hasKey R k = true := by simp [hasKey, hw]
        rw [hout, hK, keepPair_true]
        simp only [if_true]
        exact lookupF_cons_self k pv tail
      · have hkk : ¬ (k0 = k) := by
          intro he
          exact hknin (he ▸ mem_propsKeys_of_mem_toList rest k psch hm)
        rw [hout]
        by_cases hkeep : keepPair pv (hasKey R k0) = true
        · rw [if_pos hkeep, lookupF_cons_ne k0 k pv tail hkk]
          exact parseProps_lookup rest R tail k psch w pw hndrest htail hm hw hpw
        · rw [if_neg hkeep]
          exact parseProps_lookup rest R tail k psch w pw hndrest htail hm hw hpw

/-- Key tracking through the final object parse for a key absent from the
intermediate result: the parse output omits it as well. -/
theorem parseProps_lookup_none : (P : SProps) →
    ∀ (R out : List (String × Value)) (k : String) (psch : Schema),
    dupFree (propsKeys P) = true →
    parseProps P R = some out →
    (k, psch) ∈ P.toList →
    lookupF R k = none →
    lookupF out k = none
  | .nil, R, out, k, psch, hnd, h, hm, hw => by simp [SProps.toList] at hm
  | .cons k0 psch0 rest, R, out, k, psch, hnd, h, hm, hw => by
      simp only [propsKeys] at hnd
      obtain ⟨hknin, hndrest⟩ := dupFree_cons hnd
      simp only [SProps.toList, List.mem_cons] at hm
      rcases parseProps_cons_eq_some h with ⟨pv, tail, hpv, htail, hout⟩
      rcases hm with hm | hm
      · have hk : k = k0 := congrArg Prod.fst hm
        subst hk
        rw [hw] at hpv
        simp only [Option.getD_none] at hpv
        have hpvu : pv = .vUndef := parse_undef_out psch0 pv hpv
        subst hpvu
        have hK : hasKey R k = false := by simp [hasKey, hw]
        rw [hout, hK, keepPair_undef]
        simp only [Bool.false_eq_true, if_false]
        exact lookupF_none_of_keys_sub (parseProps_keys_sub rest R tail htail) hknin
      · have hkk : ¬ (k0 = k) := by
          intro he
          exact hknin (he ▸ mem_propsKeys_of_mem_toList rest k psch hm)
        rw [hout]
        by_cases hkeep : keepPair pv (hasKey R k0) = true
        · rw [if_pos hkeep, lookupF_cons_ne k0 k pv tail hkk]
          exact parseProps_lookup_none rest R tail k psch hndrest htail hm hw
        · rw [if_neg hkeep]
          exact parseProps_lookup_none rest R tail k psch hndrest htail hm hw

/-! ### Characterization of array sanitization -/

theorem sanitize_array_eq (elem : Schema) (d : Option String) (items : List Value) :
    safeSanitizedParser (.sArray elem d) (.vArr items) =
      (parse (.sArray elem d)
        (.vArr (sanitizeItems (fun it => safeSanitizedParser elem it) items))).getD
        .vNull := rfl

theorem parse_survivors_self {elem : Schema} {d : Option String}
    (hwf : wfSchema elem = true) (items : List Value) :
    parse (.sArray elem d)
      (.vArr (sanitizeItems (fun it => safeSanitizedParser elem it) items)) =
      some (.vArr (sanitizeItems (fun it => safeSanitizedParser elem it) items)) := by
  simp only [parse]
  rw [parseItems_of_self (fun w hw => by
    rcases sanitizeItems_mem hw with ⟨it, hit, hsan, hnn⟩
    rw [← hsan]
    exact sanitize_self_parse elem hwf it (by rw [hsan]; exact isVNull_false_iff.mp hnn))]
  rfl

/-- With a well-formed element schema, array sanitization always succeeds
and returns exactly the survivors list. -/
theorem sanitize_array_succeeds {elem : Schema} {d : Option String}
    (hwf : wfSchema elem = true) (items : List Value) :
    safeSanitizedParser (.sArray elem d) (.vArr items) =
      .vArr (sanitizeItems (fun it => safeSanitizedParser elem it) items) := by
  rw [sanitize_array_eq, parse_survivors_self hwf items]
  rfl

theorem sanitizeItems_eq_filter_map (san : Value → Value) :
    ∀ items : List Value, sanitizeItems san items =
      (items.filter (fun it => !(isVNull (san it)))).map san
  | [] => rfl
  | it :: rest => by
      unfold sanitizeItems
      simp only [List.filterMap_cons, List.filter_cons]
      by_cases hn : isVNull (san it) = true
      · rw [if_pos hn, hn]
        simp only [Bool.not_true, Bool.false_eq_true, if_false]
        exact sanitizeItems_eq_filter_map san rest
      · have hn2 : isVNull (san it) = false := Bool.eq_false_iff.mpr hn
        rw [if_neg hn, hn2]
        simp only [Bool.not_false, if_true, List.map_cons]
        have := sanitizeItems_eq_filter_map san rest
        unfold sanitizeItems at this
        rw [this]
  termination_by items => items.length

theorem sanitizeItems_sublist (san : Value → Value) :
    ∀ items : List Value, (∀ it, it ∈ items → san it = .vNull ∨ san it = it) →
      (sanitizeItems san items).Sublist items
  | [], _ => List.Sublist.refl []
  | it :: rest, h => by
      have hrest := sanitizeItems_sublist san rest (fun it2 h2 => h it2 (by simp [h2]))
      unfold sanitizeItems at hrest ⊢
      simp only [List.filterMap_cons]
      by_cases hn : isVNull (san it) = true
      · rw [if_pos hn]
        exact hrest.cons it
      · rw [if_neg hn]
        rcases h it (by simp) with h2 | h2
        · exact absurd (by rw [h2]; rfl) hn
        · rw [h2]
          exact hrest.cons₂ it

/-! ### Properties of `transformSchemaForLLM` -/

theorem scheck_contains_iff {checks : List SCheck} {c : SCheck} :
    List.contains checks c = true ↔ c ∈ checks := by
  induction checks with
  | nil => simp [List.contains, List.elem]
  | cons a rest ih =>
      by_cases h : a = c
      · subst h
        simp [List.contains, List.elem]
      · have h2 : (c == a) = false := by
          rw [beq_eq_false_iff_ne]
          exact fun he => h he.symm
        simp only [List.contains, List.elem, h2]
        constructor
        · intro h3
          exact List.mem_cons_of_mem a (ih.mp h3)
        · intro h3
          rcases List.mem_cons.mp h3 with h4 | h4
          · exact absurd h4.symm h
          · exact ih.mpr h4

/-- `transformSchemaForLLM` on a string schema always equals the string
schema with the url checks filtered out (when no url check is present the
filter is the identity). -/
theorem transform_string_eq (checks : List SCheck) (d : Option String) :
    transformSchemaForLLM (.sString checks d) =
      .sString (checks.filter (fun c => decide (c ≠ SCheck.url))) d := by
  simp only [transformSchemaForLLM, isUrlSchema]
  split
  · rfl
  · rename_i hnc
    have hid : checks.filter (fun c => decide (c ≠ SCheck.url)) = checks := by
      apply List.filter_eq_self.mpr
      intro c hc
      simp only [decide_eq_true_eq]
      intro he
      subst he
      exact hnc (scheck_contains_iff.mpr hc)
    rw [hid]

theorem all_filter_of_all {checks : List SCheck} {q : SCheck → Bool} {p : SCheck → Bool}
    (h : checks.all p = true) : (checks.filter q).all p = true := by
  simp only [List.all_eq_true] at h ⊢
  intro c hc
  exact h c (List.mem_of_mem_filter hc)

theorem transformProps_keys : (P : SProps) → propsKeys (transformProps P) = propsKeys P
  | .nil => rfl
  | .cons k sch rest => by
      simp only [transformProps, propsKeys]
      rw [transformProps_keys rest]

theorem transform_kind_desc (s : Schema) :
    kindOf (transformSchemaForLLM s) = kindOf s ∧
      descOf (transformSchemaForLLM s) = descOf s := by
  cases s <;> first
    | exact ⟨rfl, rfl⟩
    | (simp only [transformSchemaForLLM]; split <;> exact ⟨rfl, rfl⟩)

theorem parseItems_mono {p q : Value → Option Value}
    (hpq : ∀ v w, p v = some w → q v = some w) :
    ∀ items ws, parseItems p items = some ws → parseItems q items = some ws := by
  intro items
  induction items with
  | nil => intro ws h; exact h
  | cons it rest ih =>
      intro ws h
      rcases parseItems_eq_some h with ⟨w, tail, hw, htail, hws⟩
      subst hws
      rw [parseItems_cons, hpq it w hw, ih tail htail]
      rfl

mutual
/-- The transformed schema accepts every value the original accepts, with
the same parse result. -/
theorem transform_superset : (s : Schema) → ∀ v w, parse s v = some w →
    parse (transformSchemaForLLM s) v = some w
  | .sString checks d, v, w, h => by
      cases v <;> try exact Option.noConfusion h
      simp only [parse] at h
      split at h
      · rename_i hall
        injection h with h2
        subst h2
        rw [transform_string_eq checks d]
        simp only [parse]
        rw [if_pos (all_filter_of_all hall)]
      · exact Option.noConfusion h
  | .sNumber d, v, w, h => h
  | .sBoolean d, v, w, h => h
  | .sNull d, v, w, h => h
  | .sObject props d, v, w, h => by
      cases v <;> try exact Option.noConfusion h
      simp only [parse] at h ⊢
      rcases Option.map_eq_some'.mp h with ⟨W, hW, hw⟩
      rw [transformProps_superset props _ W hW]
      rw [← hw]
      rfl
  | .sArray elem d, v, w, h => by
      cases v <;> try exact Option.noConfusion h
      simp only [parse] at h ⊢
      rcases Option.map_eq_some'.mp h with ⟨ws, hws, hw⟩
      rw [parseItems_mono (fun v2 w2 h2 => transform_superset elem v2 w2 h2) _ ws hws]
      rw [← hw]
      rfl
  | .sOptional inner d, v, w, h => by
      by_cases hv : v = .vUndef
      · subst hv
        exact h
      · rw [parse_opt_not_undef hv] at h
        have h2 := transform_superset inner v w h
        have he : transformSchemaForLLM (.sOptional inner d) =
            .sOptional (transformSchemaForLLM inner) d := rfl
        rw [he, parse_opt_not_undef hv]
        exact h2
  | .sNullable inner d, v, w, h => by
      by_cases hv : v = .vNull
      · subst hv
        exact h
      · rw [parse_nullable_not_null hv] at h
        have h2 := transform_superset inner v w h
        have he : transformSchemaForLLM (.sNullable inner d) =
            .sNullable (transformSchemaForLLM inner) d := rfl
        rw [he, parse_nullable_not_null hv]
        exact h2

/-- The property-wise form of `transform_superset` over an object shape. -/
theorem transformProps_superset : (P : SProps) → ∀ fields W,
    parseProps P fields = some W → parseProps (transformProps P) fields = some W
  | .nil, fields, W, h => h
  | .cons k psch rest, fields, W, h => by
      rcases parseProps_cons_eq_some h with ⟨pv, tail, hpv, htail, hW⟩
      simp only [transformProps, parseProps]
      rw [transform_superset psch _ pv hpv]
      simp only [Option.some_bind]
      rw [transformProps_superset rest fields tail htail]
      simp only [Option.map_some']
      rw [hW]
end

/-! ### Substring machinery for the url cleaner -/

theorem matchesAt_sound : (pat l : List Char) → matchesAt pat l = true →
    ∃ t, l = pat ++ t
  | [], l, _ => ⟨l, rfl⟩
  | p :: ps, [], h => Bool.noConfusion h
  | p :: ps, c :: cs, h => by
      simp only [matchesAt, Bool.and_eq_true, decide_eq_true_eq] at h
      obtain ⟨h1, h2⟩ := h
      rcases matchesAt_sound ps cs h2 with ⟨t, ht⟩
      exact ⟨t, by rw [ht, h1]; rfl⟩

theorem matchesAt_append : (pat l s : List Char) → matchesAt pat l = true →
    matchesAt pat (l ++ s) = true
  | [], l, s, _ => rfl
  | p :: ps, [], s, h => Bool.noConfusion h
  | p :: ps, c :: cs, s, h => by
      simp only [matchesAt, Bool.and_eq_true] at h ⊢
      exact ⟨h.1, matchesAt_append ps cs s h.2⟩

theorem cutBefore_spec (pat : List Char) (hne : pat.isEmpty = false) :
    ∀ (l pre : List Char), cutBefore pat l = some pre →
      (∃ t, l = pre ++ (pat ++ t)) ∧ containsSub pat pre = false
  | [], pre, h => by
      simp only [cutBefore, hne, Bool.false_eq_true, if_false] at h
      exact Option.noConfusion h
  | c :: rest, pre, h => by
      simp only [cutBefore] at h
      split at h
      · rename_i hm
        injection h with h2
        subst h2
        rcases matchesAt_sound pat (c :: rest) hm with ⟨t, ht⟩
        refine ⟨⟨t, by rw [ht]; rfl⟩, ?_⟩
        simp only [containsSub, cutBefore, hne, Bool.false_eq_true, if_false,
          Option.isSome_none]
      · rename_i hm
        rcases Option.map_eq_some'.mp h with ⟨pre2, hpre2, hpre⟩
        obtain ⟨⟨t, ht⟩, hcs⟩ := cutBefore_spec pat hne rest pre2 hpre2
        subst hpre
        refine ⟨⟨t, by rw [ht]; rfl⟩, ?_⟩
        have hm2 : matchesAt pat (c :: pre2) = false := by
          cases hmm : matchesAt pat (c :: pre2) with
          | false => rfl
          | true =>
              exfalso
              have := matchesAt_append pat (c :: pre2) (pat ++ t) hmm
              have he2 : (c :: pre2) ++ (pat ++ t) = c :: rest := by simp [ht]
              rw [he2] at this
              exact hm this
        have hnone : cutBefore pat pre2 = none := by
          cases hcb : cutBefore pat pre2 with
          | none => rfl
          | some x => simp [containsSub, hcb] at hcs
        simp only [containsSub, cutBefore, hm2, Bool.false_eq_true, if_false, hnone,
          Option.map_none', Option.isSome_none]

/-! ### Characterization of `fixUrlEscapeSequences` -/

theorem fix_null (s : Schema) : fixUrlEscapeSequences .vNull s = .vNull := by
  cases s <;> rfl

theorem fix_undef (s : Schema) : fixUrlEscapeSequences .vUndef s = .vUndef := by
  cases s <;> rfl

theorem fix_url_string {checks : List SCheck} {d : Option String} (str : String)
    (h : List.contains checks SCheck.url = true) :
    fixUrlEscapeSequences (.vStr str) (.sString checks d) = .vStr (fixParens str) := by
  have he : fixUrlEscapeSequences (.vStr str) (.sString checks d) =
      if isUrlSchema (.sString checks d) then .vStr (fixParens str)
      else .vStr str := rfl
  have h2 : isUrlSchema (.sString checks d) = true := h
  rw [he, if_pos h2]

theorem fix_string_no_url {checks : List SCheck} {d : Option String} (v : Value)
    (h : List.contains checks SCheck.url = false) :
    fixUrlEscapeSequences v (.sString checks d) = v := by
  have h2 : isUrlSchema (.sString checks d) = false := h
  cases v with
  | vNull => rfl
  | vUndef => rfl
  | vStr s0 =>
      have he : fixUrlEscapeSequences (.vStr s0) (.sString checks d) =
          if isUrlSchema (.sString checks d) then .vStr (fixParens s0)
          else .vStr s0 := rfl
      rw [he, if_neg (by simp [h2])]
  | vNum n =>
      have he : fixUrlEscapeSequences (.vNum n) (.sString checks d) =
          if isUrlSchema (.sString checks d) then .vNum n else .vNum n := rfl
      rw [he, ite_self]
  | vBool b =>
      have he : fixUrlEscapeSequences (.vBool b) (.sString checks d) =
          if isUrlSchema (.sString checks d) then .vBool b else .vBool b := rfl
      rw [he, ite_self]
  | vArr items =>
      have he : fixUrlEscapeSequences (.vArr items) (.sString checks d) =
          if isUrlSchema (.sString checks d) then .vArr items else .vArr items := rfl
      rw [he, ite_self]
  | vObj fields =>
      have he : fixUrlEscapeSequences (.vObj fields) (.sString checks d) =
          if isUrlSchema (.sString checks d) then .vObj fields else .vObj fields := rfl
      rw [he, ite_self]

theorem fix_object_eq (props : SProps) (d : Option String)
    (fields : List (String × Value)) :
    fixUrlEscapeSequences (.vObj fields) (.sObject props d) =
      .vObj (fixProps props fields) := rfl

theorem fix_array_eq (elem : Schema) (d : Option String) (items : List Value) :
    fixUrlEscapeSequences (.vArr items) (.sArray elem d) =
      .vArr (items.map (fun it => fixUrlEscapeSequences it elem)) := rfl

theorem fix_optional_unwrap (inner : Schema) (d : Option String) (v : Value) :
    fixUrlEscapeSequences v (.sOptional inner d) = fixUrlEscapeSequences v inner := by
  cases v with
  | vNull => exact (fix_null inner).symm
  | vUndef => exact (fix_undef inner).symm
  | vStr s0 => rfl
  | vNum n => rfl
  | vBool b => rfl
  | vArr items => rfl
  | vObj fields => rfl

theorem fix_nullable_unwrap (inner : Schema) (d : Option String) (v : Value) :
    fixUrlEscapeSequences v (.sNullable inner d) = fixUrlEscapeSequences v inner := by
  cases v with
  | vNull => exact (fix_null inner).symm
  | vUndef => exact (fix_undef inner).symm
  | vStr s0 => rfl
  | vNum n => rfl
  | vBool b => rfl
  | vArr items => rfl
  | vObj fields => rfl

theorem fix_object_mismatch (props : SProps) (d : Option String) (v : Value)
    (hobj : ∀ fields, ¬ (v = .vObj fields)) :
    fixUrlEscapeSequences v (.sObject props d) = v := by
  cases v with
  | vObj fields => exact absurd rfl (hobj fields)
  | vNull => rfl
  | vUndef => rfl
  | vStr s0 => rfl
  | vNum n => rfl
  | vBool b => rfl
  | vArr items => rfl

theorem fix_array_mismatch (elem : Schema) (d : Option String) (v : Value)
    (harr : ∀ items, ¬ (v = .vArr items)) :
    fixUrlEscapeSequences v (.sArray elem d) = v := by
  cases v with
  | vArr items => exact absurd rfl (harr items)
  | vNull => rfl
  | vUndef => rfl
  | vStr s0 => rfl
  | vNum n => rfl
  | vBool b => rfl
  | vObj fields => rfl

theorem fix_number (d : Option String) (v : Value) :
    fixUrlEscapeSequences v (.sNumber d) = v := by
  cases v <;> rfl

theorem fixProps_char : (P : SProps) → ∀ fields : List (String × Value),
    fixProps P fields = (P.toList).map (fun p =>
      (p.1, if hasKey fields p.1
        then fixUrlEscapeSequences ((lookupF fields p.1).getD .vUndef) p.2
        else .vUndef))
  | .nil, fields => rfl
  | .cons k psch rest, fields => by
      simp only [fixProps, SProps.toList, List.map_cons]
      rw [fixProps_char rest fields]

/-!
### Claim theorems
-/

/-- Claim C1: for every schema and value, if `safeSanitizedParser(schema,
value)` returns a non-UNSANITIZABLE result, that result validates against
the same schema (zod `parse` succeeds on it).  The well-formedness
hypothesis (distinct keys in every object shape) is automatic for schemas
built from JavaScript object literals, whose keys cannot repeat. -/
theorem C1_sanitized_value_validates (s : Schema) (v : Value)
    (hwf : wfSchema s = true) (h : safeSanitizedParser s v ≠ Value.vNull) :
    (parse s (safeSanitizedParser s v)).isSome = true := by
  rw [sanitize_self_parse s hwf v h]
  rfl

/-- Witness for C1 at the unit tests' `{required: string, optional:
number?}` schema and the raw object `{required: "value", optional: "bad"}`. -/
theorem C1_sanitized_value_validates_witness :
    wfSchema schemaReqOpt = true ∧
    safeSanitizedParser schemaReqOpt valueReqOpt ≠ Value.vNull ∧
    (parse schemaReqOpt (safeSanitizedParser schemaReqOpt valueReqOpt)).isSome = true :=
  ⟨rfl, fun hh => Value.noConfusion hh,
    C1_sanitized_value_validates schemaReqOpt valueReqOpt rfl
      (fun hh => Value.noConfusion hh)⟩

/-- Claim C4: sanitization is idempotent — if `safeSanitizedParser(schema,
v)` returns a non-UNSANITIZABLE result, then sanitizing that result again
returns it unchanged.  Well-formedness of the schema (distinct object keys)
is automatic in the source language. -/
theorem C4_sanitize_idempotent (s : Schema) (v : Value)
    (hwf : wfSchema s = true) (h : safeSanitizedParser s v ≠ Value.vNull) :
    safeSanitizedParser s (safeSanitizedParser s v) = safeSanitizedParser s v :=
  sanitize_idem s hwf v h

/-- Witness for C4 at `z.array(z.number())` and the raw array
`[1, "two", 3]` (which sanitizes to `[1, 3]`). -/
theorem C4_sanitize_idempotent_witness :
    wfSchema numArraySchema = true ∧
    safeSanitizedParser numArraySchema (.vArr [.vNum 1, .vStr strTwo, .vNum 3]) ≠
      Value.vNull ∧
    safeSanitizedParser numArraySchema
      (safeSanitizedParser numArraySchema (.vArr [.vNum 1, .vStr strTwo, .vNum 3])) =
      safeSanitizedParser numArraySchema (.vArr [.vNum 1, .vStr strTwo, .vNum 3]) :=
  ⟨rfl, fun hh => Value.noConfusion hh,
    C4_sanitize_idempotent numArraySchema (.vArr [.vNum 1, .vStr strTwo, .vNum 3]) rfl
      (fun hh => Value.noConfusion hh)⟩

/-- Counterexample to claim C7: `safeSanitizedParser` returns the JavaScript
null that is also its UNSANITIZABLE sentinel.  For the nullable root schema
`z.number().nullable()`, the input `null` parses successfully (a legitimate
null result), yet the sanitizer's output on it is exactly the same `null` it
returns for the unsanitizable input `"x"` — so the output type cannot
distinguish "no data could be recovered" from a successful null result, and
is binary rather than tri-state. -/
theorem C7_tristate_counterexample :
    parse (.sNullable (.sNumber none) none) .vNull = some .vNull ∧
    safeSanitizedParser (.sNullable (.sNumber none) none) .vNull = Value.vNull ∧
    parse (.sNullable (.sNumber none) none) (.vStr strNotUrl) = none ∧
    safeSanitizedParser (.sNullable (.sNumber none) none) (.vStr strNotUrl) =
      Value.vNull :=
  ⟨rfl, rfl, rfl, rfl⟩

/-- Claim C7 (amended): the sanitizer's output is binary, not tri-state.
Null is simultaneously the UNSANITIZABLE sentinel and the result returned
for every null input — even one that validly parses under the schema — so a
legitimate null result is indistinguishable from failure.  A caller can
distinguish failure from every successful non-null outcome, because every
non-null output validates against the schema. -/
theorem C7_sanitizer_output_binary_amended :
    (∀ s : Schema, safeSanitizedParser s .vNull = Value.vNull) ∧
    (∀ (s : Schema) (v : Value), wfSchema s = true →
      safeSanitizedParser s v ≠ Value.vNull →
      (parse s (safeSanitizedParser s v)).isSome = true) :=
  ⟨sanitize_vNull,
    fun s v hwf h => by rw [sanitize_self_parse s hwf v h]; rfl⟩

/-- Witness for the amended C7: the nullable schema maps the valid input
`null` to the sentinel, and a successful non-null output (`3`) validates. -/
theorem C7_sanitizer_output_binary_witness :
    safeSanitizedParser (.sNullable (.sNumber none) none) .vNull = Value.vNull ∧
    (wfSchema (.sNullable (.sNumber none) none) = true ∧
      safeSanitizedParser (.sNullable (.sNumber none) none) (.vNum 3) ≠ Value.vNull ∧
      (parse (.sNullable (.sNumber none) none)
        (safeSanitizedParser (.sNullable (.sNumber none) none) (.vNum 3))).isSome =
        true) :=
  ⟨C7_sanitizer_output_binary_amended.1 (.sNullable (.sNumber none) none),
    ⟨rfl, fun hh => Value.noConfusion hh,
      C7_sanitizer_output_binary_amended.2 (.sNullable (.sNumber none) none) (.vNum 3)
        rfl (fun hh => Value.noConfusion hh)⟩⟩

/-- Claim C9: with `extractMainHtml` enabled, the conversion returns the
full-document markdown instead of the main-content markdown exactly when
the main-content markdown is empty, or is both shorter than 20% of the
full-document markdown and shorter than 500 characters; otherwise it
returns the main-content markdown.  (`5 * main < full` is the exact
rational form of the source's `main < full * 0.2` double comparison; the
turndown conversions themselves are the external turndown library, so the
selection logic takes the two converted strings as inputs.) -/
theorem C9_main_content_fallback (full main : String) :
    ((main.length = 0 ∨ (5 * main.length < full.length ∧ main.length < 500)) →
      selectConvertedMarkdown true full main = full) ∧
    (¬ (main.length = 0 ∨ (5 * main.length < full.length ∧ main.length < 500)) →
      selectConvertedMarkdown true full main = main) ∧
    (¬ (main = full) →
      (selectConvertedMarkdown true full main = full ↔
        (main.length = 0 ∨ (5 * main.length < full.length ∧ main.length < 500)))) := by
  refine ⟨?_, ?_, ?_⟩
  · intro hc
    simp only [selectConvertedMarkdown, if_true]
    rw [if_pos hc]
  · intro hc
    simp only [selectConvertedMarkdown, if_true]
    rw [if_neg hc]
  · intro hne
    constructor
    · intro hres
      by_cases hc : main.length = 0 ∨ (5 * main.length < full.length ∧ main.length < 500)
      · exact hc
      · exfalso
        simp only [selectConvertedMarkdown, if_true] at hres
        rw [if_neg hc] at hres
        exact hne hres
    · intro hc
      simp only [selectConvertedMarkdown, if_true]
      rw [if_pos hc]

/-- Witness for C9: a 3-character main content against a 16-character full
document falls back to the full document (15 < 16 and 3 < 500); a
4-character main content against a 10-character full document is kept
(20 < 10 fails). -/
theorem C9_main_content_fallback_witness :
    selectConvertedMarkdown true mdFull mdMain = mdFull ∧
    selectConvertedMarkdown true mdFull2 mdMain2 = mdMain2 :=
  ⟨(C9_main_content_fallback mdFull mdMain).1 (by right; constructor <;> decide),
    (C9_main_content_fallback mdFull2 mdMain2).2.1 (by
      intro hc
      rcases hc with h | h
      · exact absurd h (by decide)
      · exact absurd h.1 (by decide))⟩

/-- Claim C10: because the sanitizer uses null itself as the UNSANITIZABLE
sentinel, a sub-sanitization whose successful result is exactly null is
indistinguishable from failure.  (1) For every object schema with a
required (non-Optional, non-Nullable) property bound to `null` in the input
— in particular a `z.null()` property, for which that input fully validates
— `safeSanitizedParser` returns UNSANITIZABLE.  (2) For every array schema
whose element schema accepts null, input elements equal to null are dropped
from the sanitized array rather than kept. -/
theorem C10_null_sentinel_data_loss :
    (∀ props d k psch fields,
      (k, psch) ∈ SProps.toList props →
      isZodType psch SKind.optionalK = false →
      isZodType psch SKind.nullableK = false →
      lookupF fields k = some Value.vNull →
      safeSanitizedParser (.sObject props d) (.vObj fields) = Value.vNull) ∧
    (∀ elem d items out,
      parse elem .vNull = some Value.vNull →
      Value.vNull ∈ items →
      safeSanitizedParser (.sArray elem d) (.vArr items) = .vArr out →
      ¬ (Value.vNull ∈ out)) := by
  constructor
  · intro props d k psch fields hm hno hnn hc
    exact sanitize_object_of_processProps_none
      (processProps_req_fail props fields k psch .vNull hm hno hnn hc
        (sanitize_vNull psch))
  · intro elem d items out hacc hmem hout hvout
    rw [sanitize_array_eq] at hout
    cases hp : parse (.sArray elem d)
        (.vArr (sanitizeItems (fun it => safeSanitizedParser elem it) items)) with
    | none => rw [hp] at hout; exact absurd hout (by simp)
    | some r =>
        rw [hp] at hout
        simp only [Option.getD_some] at hout
        subst hout
        simp only [parse] at hp
        rcases Option.map_eq_some'.mp hp with ⟨pvs, hpvs, hpv⟩
        have hpvs2 : pvs = out := by injection hpv
        subst hpvs2
        rcases parseItems_mem hpvs .vNull hvout with ⟨it, hit, hpit⟩
        have hitnull : it = .vNull := parse_out_null elem it hpit
        subst hitnull
        rcases sanitizeItems_mem hit with ⟨it2, hit2, hsan2, hnn2⟩
        exact Bool.noConfusion hnn2

/-- Witness for C10: the schema `{a: z.null()}` with the fully valid input
`{a: null}` (it parses) sanitizes to UNSANITIZABLE; and
`z.array(z.number().nullable())` applied to `[1, null, 2]` drops the valid
null element. -/
theorem C10_null_sentinel_data_loss_witness :
    (parse schemaNullA (.vObj [(keyA, .vNull)])).isSome = true ∧
    safeSanitizedParser schemaNullA (.vObj [(keyA, .vNull)]) = Value.vNull ∧
    safeSanitizedParser nullableNumArraySchema (.vArr [.vNum 1, .vNull, .vNum 2]) =
      .vArr [.vNum 1, .vNum 2] ∧
    ¬ (Value.vNull ∈ [Value.vNum 1, Value.vNum 2]) :=
  ⟨rfl,
    C10_null_sentinel_data_loss.1 (.cons keyA (.sNull none) .nil) none keyA
      (.sNull none) [(keyA, .vNull)] (by simp [SProps.toList]) rfl rfl rfl,
    rfl,
    C10_null_sentinel_data_loss.2 (.sNullable (.sNumber none) none) none
      [.vNum 1, .vNull, .vNum 2] [.vNum 1, .vNum 2] rfl (by simp) rfl⟩

/-- Counterexample to claim C2: an Optional property whose present non-null
value fails to sanitize is not omitted from the result.  At `{required:
string, optional: number?}` with input `{required: "value", optional:
"bad"}`, the inner sanitization of the optional property fails (returns the
null sentinel), yet the sanitized object still binds `optional` — to
`undefined` (`sanitizeOptional` converts the failure to `undefined`, which
is `!== null`, so `result[key] = undefined` is executed and zod's
`alwaysSet` rule keeps the explicitly-undefined key in the final parse). -/
theorem C2_optional_not_omitted_counterexample :
    safeSanitizedParser (.sNumber none) (.vStr strBad) = Value.vNull ∧
    safeSanitizedParser schemaReqOpt valueReqOpt = sanitizedReqOpt ∧
    hasKey [(keyRequired, Value.vStr strValue), (keyOptional, Value.vUndef)]
      keyOptional = true :=
  ⟨rfl, rfl, rfl⟩

/-- Claim C2 (amended): for an object schema and a non-array object value,
each declared property present in the input is handled as follows.  An
Optional property whose present non-null value fails to sanitize against
the inner schema is kept with the value `undefined` (JSON serialization and
the repository's own `toEqual` assertions cannot distinguish this from
omission, but the key is present); an Optional property present with the
value `null` is genuinely omitted.  A Nullable property whose present
non-null value fails to sanitize is set to explicit null.  A required
(non-Optional, non-Nullable) property that fails to sanitize makes the
entire object UNSANITIZABLE.  Neither the Optional nor the Nullable case
ever fails the object. -/
theorem C2_object_property_policy_amended :
    (∀ props d k inner d2 fields c out,
      (k, Schema.sOptional inner d2) ∈ SProps.toList props →
      dupFree (propsKeys props) = true →
      lookupF fields k = some c → ¬ (c = Value.vNull) → ¬ (c = Value.vUndef) →
      safeSanitizedParser inner c = Value.vNull →
      safeSanitizedParser (.sObject props d) (.vObj fields) = .vObj out →
      lookupF out k = some Value.vUndef) ∧
    (∀ props d k inner d2 fields c out,
      (k, Schema.sNullable inner d2) ∈ SProps.toList props →
      dupFree (propsKeys props) = true →
      lookupF fields k = some c → ¬ (c = Value.vNull) → ¬ (c = Value.vUndef) →
      safeSanitizedParser inner c = Value.vNull →
      safeSanitizedParser (.sObject props d) (.vObj fields) = .vObj out →
      lookupF out k = some Value.vNull) ∧
    (∀ props d k psch fields c,
      (k, psch) ∈ SProps.toList props →
      isZodType psch SKind.optionalK = false →
      isZodType psch SKind.nullableK = false →
      lookupF fields k = some c →
      safeSanitizedParser psch c = Value.vNull →
      safeSanitizedParser (.sObject props d) (.vObj fields) = Value.vNull) ∧
    (∀ props d k inner d2 fields out,
      (k, Schema.sOptional inner d2) ∈ SProps.toList props →
      dupFree (propsKeys props) = true →
      lookupF fields k = some Value.vNull →
      safeSanitizedParser (.sObject props d) (.vObj fields) = .vObj out →
      lookupF out k = none) := by
  refine ⟨?_, ?_, ?_, ?_⟩
  · intro props d k inner d2 fields c out hm hnd hc hcn hcu hfail hout
    obtain ⟨result, hres, hpp⟩ := sanitize_object_eq_vObj hout
    have hopt : isZodType (Schema.sOptional inner d2) SKind.optionalK = true := rfl
    have hlook := processProps_lookup_opt props fields result k _ c hnd hres hm hopt hc
    have hsan : safeSanitizedParser (.sOptional inner d2) c = Value.vUndef := by
      rw [san_opt_eq inner d2 c hcn hcu, hfail]
      rfl
    rw [hsan] at hlook
    have hlook2 : lookupF result k = some Value.vUndef := hlook
    exact parseProps_lookup props result out k _ .vUndef .vUndef hnd hpp hm hlook2 rfl
  · intro props d k inner d2 fields c out hm hnd hc hcn hcu hfail hout
    obtain ⟨result, hres, hpp⟩ := sanitize_object_eq_vObj hout
    have hnul : isZodType (Schema.sNullable inner d2) SKind.nullableK = true := rfl
    have hlook := processProps_lookup_nullable props fields result k _ c hnd hres hm
      hnul hc
    have hsan : safeSanitizedParser (.sNullable inner d2) c = Value.vNull := by
      rw [san_nullable_eq inner d2 c hcn hcu, hfail]
      rfl
    rw [hsan] at hlook
    exact parseProps_lookup props result out k _ .vNull .vNull hnd hpp hm hlook rfl
  · intro props d k psch fields c hm hno hnn hc hfail
    exact sanitize_object_of_processProps_none
      (processProps_req_fail props fields k psch c hm hno hnn hc hfail)
  · intro props d k inner d2 fields out hm hnd hc hout
    obtain ⟨result, hres, hpp⟩ := sanitize_object_eq_vObj hout
    have hopt : isZodType (Schema.sOptional inner d2) SKind.optionalK = true := rfl
    have hlook := processProps_lookup_opt props fields result k _ Value.vNull hnd hres
      hm hopt hc
    rw [sanitize_vNull (.sOptional inner d2)] at hlook
    have hlook2 : lookupF result k = none := hlook
    exact parseProps_lookup_none props result out k _ hnd hpp hm hlook2

/-- Witness for the amended C2, at the concrete schemas of the unit tests:
an invalid non-null optional value yields an undefined binding; an invalid
nullable value yields an explicit null binding; an invalid required value
fails the whole object; a null optional value is omitted. -/
theorem C2_object_property_policy_witness :
    lookupF [(keyRequired, Value.vStr strValue), (keyOptional, Value.vUndef)]
      keyOptional = some Value.vUndef ∧
    lookupF [(keyA, Value.vNull)] keyA = some Value.vNull ∧
    safeSanitizedParser schemaReqOpt
      (.vObj [(keyRequired, .vNum 123), (keyOptional, .vNum 456)]) = Value.vNull ∧
    lookupF [(keyRequired, Value.vStr strValue)] keyOptional = none := by
  refine ⟨?_, ?_, ?_, ?_⟩
  · exact C2_object_property_policy_amended.1
      (.cons keyRequired (.sString [] none)
        (.cons keyOptional (.sOptional (.sNumber none) none) .nil)) none
      keyOptional (.sNumber none) none
      [(keyRequired, .vStr strValue), (keyOptional, .vStr strBad)]
      (.vStr strBad)
      [(keyRequired, Value.vStr strValue), (keyOptional, Value.vUndef)]
      (by simp [SProps.toList]) rfl rfl
      (fun hh => Value.noConfusion hh) (fun hh => Value.noConfusion hh) rfl rfl
  · exact C2_object_property_policy_amended.2.1
      (.cons keyA (.sNullable (.sNumber none) none) .nil) none
      keyA (.sNumber none) none [(keyA, .vStr strBad)] (.vStr strBad)
      [(keyA, Value.vNull)]
      (by simp [SProps.toList]) rfl rfl
      (fun hh => Value.noConfusion hh) (fun hh => Value.noConfusion hh) rfl rfl
  · exact C2_object_property_policy_amended.2.2.1
      (.cons keyRequired (.sString [] none)
        (.cons keyOptional (.sOptional (.sNumber none) none) .nil)) none
      keyRequired (.sString [] none)
      [(keyRequired, .vNum 123), (keyOptional, .vNum 456)] (.vNum 123)
      (by simp [SProps.toList]) rfl rfl rfl rfl
  · exact C2_object_property_policy_amended.2.2.2
      (.cons keyRequired (.sString [] none)
        (.cons keyOptional (.sOptional (.sNumber none) none) .nil)) none
      keyOptional (.sNumber none) none
      [(keyRequired, .vStr strValue), (keyOptional, .vNull)]
      [(keyRequired, Value.vStr strValue)]
      (by simp [SProps.toList]) rfl rfl rfl

/-- Counterexample to claim C3: sanitizing an array can rewrite a surviving
element instead of keeping it verbatim, so the output is not in general a
subsequence of the input elements.  Here the single element has an invalid
optional field; it survives, but as a repaired object that differs from the
input element, and the output is not a sublist of the input. -/
theorem C3_array_subsequence_counterexample :
    safeSanitizedParser (.sArray schemaReqOpt none) (.vArr [valueReqOpt]) =
      .vArr [sanitizedReqOpt] ∧
    ¬ List.Sublist [sanitizedReqOpt] [valueReqOpt] := by
  refine ⟨rfl, ?_⟩
  intro h
  have hmem : sanitizedReqOpt ∈ [valueReqOpt] := h.subset (by simp)
  rw [List.mem_singleton] at hmem
  have : Value.vUndef = Value.vStr strBad := by
    have h2 := congrArg (fun v => match v with
      | Value.vObj fields => lookupF fields keyOptional
      | _ => none) hmem
    simp only [sanitizedReqOpt, valueReqOpt] at h2
    have h3 : lookupF [(keyRequired, Value.vStr strValue),
        (keyOptional, Value.vUndef)] keyOptional =
        lookupF [(keyRequired, Value.vStr strValue),
          (keyOptional, Value.vStr strBad)] keyOptional := h2
    rw [lookupF_cons_ne keyRequired keyOptional _ _ (by simp [keyRequired, keyOptional]),
      lookupF_cons_ne keyRequired keyOptional _ _ (by simp [keyRequired, keyOptional]),
      lookupF_cons_self, lookupF_cons_self] at h3
    exact Option.some.inj h3
  exact Value.noConfusion this

/-- Claim C3 (amended): array sanitization sanitizes each element
independently against the element schema and keeps, in input order, exactly
the elements whose sanitization succeeds — each replaced by its sanitized
value, which itself validates.  When sanitization returns every surviving
element unchanged (as with primitive element schemas), the output is an
order-preserving subsequence of the input elements, as the claim stated. -/
theorem C3_array_filter_amended :
    (∀ elem d items, wfSchema elem = true →
      safeSanitizedParser (.sArray elem d) (.vArr items) =
        .vArr ((items.filter (fun it =>
          !(isVNull (safeSanitizedParser elem it)))).map
            (fun it => safeSanitizedParser elem it))) ∧
    (∀ elem items, wfSchema elem = true →
      ∀ w, w ∈ sanitizeItems (fun it => safeSanitizedParser elem it) items →
        parse elem w = some w) ∧
    (∀ elem items,
      (∀ it, it ∈ items → safeSanitizedParser elem it = Value.vNull ∨
        safeSanitizedParser elem it = it) →
      (sanitizeItems (fun it => safeSanitizedParser elem it) items).Sublist items) := by
  refine ⟨?_, ?_, ?_⟩
  · intro elem d items hwf
    rw [sanitize_array_succeeds hwf items, sanitizeItems_eq_filter_map]
  · intro elem items hwf w hw
    rcases sanitizeItems_mem hw with ⟨it, hit, hsan, hnn⟩
    rw [← hsan]
    exact sanitize_self_parse elem hwf it (by rw [hsan]; exact isVNull_false_iff.mp hnn)
  · intro elem items hid
    exact sanitizeItems_sublist _ items hid

/-- Witness for the amended C3 at `z.array(z.number())` and `[1, "two", 3]`
(the spec's example): the result is `[1, 3]`, and is a sublist of the
input. -/
theorem C3_array_filter_witness :
    safeSanitizedParser numArraySchema (.vArr [.vNum 1, .vStr strTwo, .vNum 3]) =
      .vArr [.vNum 1, .vNum 3] ∧
    (sanitizeItems (fun it => safeSanitizedParser (.sNumber none) it)
      [.vNum 1, .vStr strTwo, .vNum 3]).Sublist [.vNum 1, .vStr strTwo, .vNum 3] := by
  constructor
  · exact (C3_array_filter_amended.1 (.sNumber none) none
      [.vNum 1, .vStr strTwo, .vNum 3] rfl).trans rfl
  · refine C3_array_filter_amended.2.2 (.sNumber none)
      [.vNum 1, .vStr strTwo, .vNum 3] ?_
    intro it hit
    fin_cases hit
    · exact Or.inr rfl
    · exact Or.inl rfl
    · exact Or.inr rfl

/-- Claim C5: `transformSchemaForLLM` validates a superset of the original
schema — every value the original parses is parsed (to the same result) by
the transformed schema, and in particular a string passing all non-url
checks is accepted where the original additionally required the url format
— while preserving node kind, description metadata, object property names
and order, array/optional/nullable nesting structure, and all non-url
string checks, at every nesting level (the structure-preservation equations
are recursive in the transformed children, so they apply at each level). -/
theorem C5_transform_superset_preserves_structure :
    (∀ s v w, parse s v = some w → parse (transformSchemaForLLM s) v = some w) ∧
    (∀ s, kindOf (transformSchemaForLLM s) = kindOf s ∧
      descOf (transformSchemaForLLM s) = descOf s) ∧
    (∀ props d, transformSchemaForLLM (.sObject props d) =
      .sObject (transformProps props) d ∧
      propsKeys (transformProps props) = propsKeys props) ∧
    (∀ elem d, transformSchemaForLLM (.sArray elem d) =
      .sArray (transformSchemaForLLM elem) d) ∧
    (∀ inner d, transformSchemaForLLM (.sOptional inner d) =
      .sOptional (transformSchemaForLLM inner) d ∧
      transformSchemaForLLM (.sNullable inner d) =
        .sNullable (transformSchemaForLLM inner) d) ∧
    (∀ checks d, transformSchemaForLLM (.sString checks d) =
      .sString (checks.filter (fun c => decide (c ≠ SCheck.url))) d ∧
      ¬ (SCheck.url ∈ checks.filter (fun c => decide (c ≠ SCheck.url))) ∧
      (∀ c, c ∈ checks → ¬ (c = SCheck.url) →
        c ∈ checks.filter (fun c2 => decide (c2 ≠ SCheck.url)))) ∧
    (∀ checks d str,
      ((checks.filter (fun c => decide (c ≠ SCheck.url))).all
        (fun c => passCheck c str)) = true →
      parse (transformSchemaForLLM (.sString checks d)) (.vStr str) =
        some (.vStr str)) := by
  refine ⟨transform_superset, transform_kind_desc, ?_, ?_, ?_, ?_, ?_⟩
  · intro props d
    exact ⟨rfl, transformProps_keys props⟩
  · intro elem d
    rfl
  · intro inner d
    exact ⟨rfl, rfl⟩
  · intro checks d
    refine ⟨transform_string_eq checks d, ?_, ?_⟩
    · intro hmem
      rcases List.mem_filter.mp hmem with ⟨_, hdec⟩
      simp only [decide_eq_true_eq] at hdec
      exact hdec rfl
    · intro c hc hcne
      exact List.mem_filter.mpr ⟨hc, by simp only [decide_eq_true_eq]; exact hcne⟩
  · intro checks d str hall
    rw [transform_string_eq checks d]
    simp only [parse]
    rw [if_pos hall]

/-- Witness for C5 at `z.string().url().describe("Profile URL")`: the
transform removes the url check, keeps the description, stays a string
schema, accepts the non-URL string `"not a url"` that the original rejects,
and still accepts what the original accepted. -/
theorem C5_transform_witness :
    parse (transformSchemaForLLM urlProfileSchema) (.vStr strNotUrl) =
      some (.vStr strNotUrl) ∧
    parse urlProfileSchema (.vStr strNotUrl) = none ∧
    descOf (transformSchemaForLLM urlProfileSchema) = some descProfile ∧
    kindOf (transformSchemaForLLM urlProfileSchema) = SKind.stringK ∧
    parse (transformSchemaForLLM urlProfileSchema) (.vStr strUrlOk) =
      some (.vStr strUrlOk) := by
  refine ⟨?_, rfl, ?_, ?_, ?_⟩
  · exact C5_transform_superset_preserves_structure.2.2.2.2.2.2
      [SCheck.url] (some descProfile) strNotUrl rfl
  · exact ((C5_transform_superset_preserves_structure.2.1 urlProfileSchema).2).trans rfl
  · exact ((C5_transform_superset_preserves_structure.2.1 urlProfileSchema).1).trans rfl
  · exact C5_transform_superset_preserves_structure.1 urlProfileSchema
      (.vStr strUrlOk) (.vStr strUrlOk) rfl

/-- Counterexample to claim C6: `fixUrlEscapeSequences` does not pass
non-matching structure through unchanged and can drop data.  For the object
schema `{a: string.url()}` and the object value `{b: "y"}`, the function
rebuilds the result from the schema's keys: the data key `b` is dropped and
the missing schema key `a` appears bound to `undefined`. -/
theorem C6_fixurl_passthrough_counterexample :
    fixUrlEscapeSequences (.vObj [(keyB, .vStr strY)]) schemaUrlA =
      .vObj [(keyA, .vUndef)] ∧
    ¬ (fixUrlEscapeSequences (.vObj [(keyB, .vStr strY)]) schemaUrlA =
      .vObj [(keyB, .vStr strY)]) := by
  refine ⟨rfl, ?_⟩
  intro hh
  have hh2 : Value.vObj [(keyA, Value.vUndef)] =
      Value.vObj [(keyB, Value.vStr strY)] := hh
  have h3 := congrArg (fun v => match v with
    | Value.vObj fields => hasKey fields keyB
    | _ => false) hh2
  simp only [hasKey, lookupF] at h3
  simp [keyA, keyB] at h3

/-- Claim C6 (amended): `fixUrlEscapeSequences` is total and never fails;
null and undefined pass through unchanged; a string leaf under a
url-constrained string schema has its backslash-escaped parentheses
unescaped; arrays under array schemas map the rewrite over their elements;
Optional/Nullable unwrap; values whose shape does not match an object or
array schema, and values under non-url primitive schemas, pass through
unchanged.  However, for an object schema with an object value the result
is rebuilt from the schema's declared keys: data keys outside the schema
are dropped and schema keys missing from the data are bound to undefined —
the function does not pass object structure through unchanged and can drop
data, contrary to the claim. -/
theorem C6_fixurl_rewrite_amended :
    (∀ s, fixUrlEscapeSequences .vNull s = .vNull ∧
      fixUrlEscapeSequences .vUndef s = .vUndef) ∧
    (∀ checks d str, List.contains checks SCheck.url = true →
      fixUrlEscapeSequences (.vStr str) (.sString checks d) =
        .vStr (fixParens str)) ∧
    (∀ props d fields, fixUrlEscapeSequences (.vObj fields) (.sObject props d) =
      .vObj ((SProps.toList props).map (fun p =>
        (p.1, if hasKey fields p.1
          then fixUrlEscapeSequences ((lookupF fields p.1).getD .vUndef) p.2
          else .vUndef)))) ∧
    (∀ elem d items, fixUrlEscapeSequences (.vArr items) (.sArray elem d) =
      .vArr (items.map (fun it => fixUrlEscapeSequences it elem))) ∧
    (∀ inner d v, fixUrlEscapeSequences v (.sOptional inner d) =
      fixUrlEscapeSequences v inner ∧
      fixUrlEscapeSequences v (.sNullable inner d) = fixUrlEscapeSequences v inner) ∧
    (∀ props d v, (∀ fields, ¬ (v = .vObj fields)) →
      fixUrlEscapeSequences v (.sObject props d) = v) ∧
    (∀ elem d v, (∀ items, ¬ (v = .vArr items)) →
      fixUrlEscapeSequences v (.sArray elem d) = v) ∧
    (∀ d v, fixUrlEscapeSequences v (.sNumber d) = v) ∧
    (∀ checks d v, List.contains checks SCheck.url = false →
      fixUrlEscapeSequences v (.sString checks d) = v) := by
  refine ⟨?_, ?_, ?_, fix_array_eq, ?_, fix_object_mismatch, fix_array_mismatch,
    fix_number, ?_⟩
  · intro s
    exact ⟨fix_null s, fix_undef s⟩
  · intro checks d str h
    exact fix_url_string str h
  · intro props d fields
    rw [fix_object_eq, fixProps_char]
  · intro inner d v
    exact ⟨fix_optional_unwrap inner d v, fix_nullable_unwrap inner d v⟩
  · intro checks d v h
    exact fix_string_no_url v h

/-- Witness for the amended C6: the spec's url-repair example (the escaped
parentheses in the URL string are unescaped), and the object rebuild at the
schema `{a: string.url()}`. -/
theorem C6_fixurl_rewrite_witness :
    fixUrlEscapeSequences (.vStr urlEsc) (.sString [SCheck.url] none) =
      .vStr urlFixed ∧
    fixUrlEscapeSequences (.vObj [(keyA, .vStr urlEsc)]) schemaUrlA =
      .vObj [(keyA, .vStr urlFixed)] ∧
    fixUrlEscapeSequences .vNull (.sString [SCheck.url] none) = .vNull ∧
    fixUrlEscapeSequences (.vNum 7) (.sNumber none) = .vNum 7 := by
  refine ⟨?_, ?_, ?_, ?_⟩
  · exact (C6_fixurl_rewrite_amended.2.1 [SCheck.url] none urlEsc rfl).trans rfl
  · exact (C6_fixurl_rewrite_amended.2.2.1
      (.cons keyA (.sString [SCheck.url] none) .nil) none
      [(keyA, .vStr urlEsc)]).trans rfl
  · exact (C6_fixurl_rewrite_amended.1 (.sString [SCheck.url] none)).1
  · exact C6_fixurl_rewrite_amended.2.2.2.2.2.2.2.1 none (.vNum 7)

/-- Claim C8: when the `cleanUrls` option is enabled, recognized Amazon
URLs are truncated at their first `/ref=` segment (everything from `/ref=`
onward removed, and the kept prefix contains no earlier `/ref=`);
unrecognized URLs, URLs without `/ref=`, and every URL under a disabled
option are left unmodified.  The implementation of this post-processing is
not present under src (only the `HTMLExtractionOptions.cleanUrls`
declaration and its unit tests are), so `cleanSingleUrl` is modelled from
the spec; see its definition. -/
theorem C8_cleanurls_amazon_truncation :
    (∀ href, cleanSingleUrl false href = href) ∧
    (∀ href, containsSub amazonPat href.toList = false →
      cleanSingleUrl true href = href) ∧
    (∀ href pre, containsSub amazonPat href.toList = true →
      cutBefore refPat href.toList = some pre →
      cleanSingleUrl true href = String.mk pre ∧
      (∃ t, href.toList = pre ++ (refPat ++ t)) ∧
      containsSub refPat pre = false) ∧
    (∀ href, cutBefore refPat href.toList = none →
      cleanSingleUrl true href = href) := by
  refine ⟨fun href => rfl, ?_, ?_, ?_⟩
  · intro href h
    have h2 : containsSub amazonPat href.data = false := h
    unfold cleanSingleUrl
    rw [if_neg (by simp [h2])]
  · intro href pre hcon hcut
    have hcon2 : containsSub amazonPat href.data = true := hcon
    have hcut2 : cutBefore refPat href.data = some pre := hcut
    refine ⟨?_, ?_⟩
    · unfold cleanSingleUrl
      rw [if_pos (by simp [hcon2])]
      rw [hcut]
    · exact cutBefore_spec refPat rfl href.toList pre hcut
  · intro href h
    unfold cleanSingleUrl
    split
    · rw [h]
    · rfl

/-- Witness for C8 at the unit tests' URLs: the Amazon product URL is
truncated at `/ref=`, the same URL is untouched when the option is off, and
a non-Amazon URL containing `ref=` is untouched even with the option on. -/
theorem C8_cleanurls_witness :
    cleanSingleUrl true amzUrl = amzClean ∧
    cleanSingleUrl false amzUrl = amzUrl ∧
    cleanSingleUrl true shopUrl = shopUrl :=
  ⟨(C8_cleanurls_amazon_truncation.2.2.1 amzUrl (amzClean.toList) rfl rfl).1,
    C8_cleanurls_amazon_truncation.1 amzUrl,
    C8_cleanurls_amazon_truncation.2.1 shopUrl rfl⟩

end LightfeedExtract
